import Mathlib

/-
Verification of the cell-transformation engine of the tbplas repository
(src/tbplas/builder/factory.py): extend_prim_cell, reshape_prim_cell,
trim_prim_cell and apply_pbc, over a shallow embedding of the primitive-cell
data structure.  Real-valued quantities of the source are embedded as exact
rationals; machine floats are not modelled.  The PrimitiveCell container
itself lives in builder/primitive.py, which is not part of the sources at
hand; its small interface (constructor, add_orbital, add_hopping,
remove_orbital, sync_array) is modelled from the specification as noted on
each definition.
-/

set_option autoImplicit false

namespace TBPlaS

/-- Row vector of three rational coordinates. -/
abbrev Vec3 := ℚ × ℚ × ℚ

/-- Integer translation triple (a cell offset). -/
abbrev IVec3 := ℤ × ℤ × ℤ

/-- A 3 x 3 rational matrix given by its three rows. -/
abbrev Mat3 := Vec3 × Vec3 × Vec3

/-- Componentwise sum of two vectors. -/
def v3add (u v : Vec3) : Vec3 :=
  (u.1 + v.1, u.2.1 + v.2.1, u.2.2 + v.2.2)

/-- Componentwise difference of two vectors. -/
def v3sub (u v : Vec3) : Vec3 :=
  (u.1 - v.1, u.2.1 - v.2.1, u.2.2 - v.2.2)

/-- Add the same scalar to every component (numpy broadcast of a scalar). -/
def v3addC (v : Vec3) (c : ℚ) : Vec3 :=
  (v.1 + c, v.2.1 + c, v.2.2 + c)

/-- Scale every component of a vector. -/
def v3smul (c : ℚ) (v : Vec3) : Vec3 :=
  (c * v.1, c * v.2.1, c * v.2.2)

/-- Integer translation plus fractional position, as rationals. -/
def iAdd (n : IVec3) (p : Vec3) : Vec3 :=
  ((n.1 : ℚ) + p.1, (n.2.1 : ℚ) + p.2.1, (n.2.2 : ℚ) + p.2.2)

/-- Sum of two integer triples. -/
def iAddI (m n : IVec3) : IVec3 :=
  (m.1 + n.1, m.2.1 + n.2.1, m.2.2 + n.2.2)

/-- Subtract an integer triple from a vector componentwise. -/
def v3subI (v : Vec3) (n : IVec3) : Vec3 :=
  (v.1 - (n.1 : ℚ), v.2.1 - (n.2.1 : ℚ), v.2.2 - (n.2.2 : ℚ))

/-- Squared Euclidean norm; comparing it with the square of a tolerance is
equivalent to comparing the Euclidean norm with the tolerance itself. -/
def normSq (v : Vec3) : ℚ :=
  v.1 ^ 2 + v.2.1 ^ 2 + v.2.2 ^ 2

/-- Row vector times matrix, the np.matmul(x, m) of the source with x a row. -/
def rowMul (x : Vec3) (m : Mat3) : Vec3 :=
  (x.1 * m.1.1 + x.2.1 * m.2.1.1 + x.2.2 * m.2.2.1,
   x.1 * m.1.2.1 + x.2.1 * m.2.1.2.1 + x.2.2 * m.2.2.2.1,
   x.1 * m.1.2.2 + x.2.1 * m.2.1.2.2 + x.2.2 * m.2.2.2.2)

/-- Determinant of a 3 x 3 matrix of rows. -/
def det3 (m : Mat3) : ℚ :=
  m.1.1 * (m.2.1.2.1 * m.2.2.2.2 - m.2.1.2.2 * m.2.2.2.1)
    - m.1.2.1 * (m.2.1.1 * m.2.2.2.2 - m.2.1.2.2 * m.2.2.1)
    + m.1.2.2 * (m.2.1.1 * m.2.2.2.1 - m.2.1.2.1 * m.2.2.1)

/-- Matrix inverse by the adjugate formula, the np.linalg.inv of the source;
meaningful when the determinant is nonzero. -/
def inv3 (m : Mat3) : Mat3 :=
  let a := m.1.1; let b := m.1.2.1; let c := m.1.2.2
  let d := m.2.1.1; let e := m.2.1.2.1; let f := m.2.1.2.2
  let g := m.2.2.1; let h := m.2.2.2.1; let i := m.2.2.2.2
  let dt := det3 m
  (((e * i - f * h) / dt, -(b * i - c * h) / dt, (b * f - c * e) / dt),
   ((-(d * i - f * g)) / dt, (a * i - c * g) / dt, -(a * f - c * d) / dt),
   ((d * h - e * g) / dt, -(a * h - b * g) / dt, (a * e - b * d) / dt))

/-- Identity 3 x 3 matrix. -/
def id3 : Mat3 := ((1, 0, 0), (0, 1, 0), (0, 0, 1))

/-- Modelled from the spec: an orbital of the Lattice Model is a fractional
position together with an on-site energy (builder/primitive.py is not under
the sources at hand). -/
structure Orbital where
  position : Vec3
  energy : ℚ
deriving DecidableEq

instance : Inhabited Orbital := ⟨⟨(0, 0, 0), 0⟩⟩

/-- Modelled from the spec: a hopping term carries an integer cell offset,
the two orbital indices and a coupling energy. -/
structure Hopping where
  rn : IVec3
  orb_i : ℕ
  orb_j : ℕ
  energy : ℚ
deriving DecidableEq

/-- Modelled from the spec: the Lattice Model (PrimitiveCell of
builder/primitive.py, not under the sources at hand) holds the lattice
vectors, the ordered orbital list, the hopping list and the informational
scale factor carried in the field after the hoppings.  add_orbital and
add_hopping append to the respective lists (multiple hoppings with the same
offset and indices may coexist; no implicit deduplication), and the derived
cached arrays recomputed by sync_array are exactly the lists themselves, so
sync_array is the identity in this embedding. -/
structure PrimitiveCell where
  lat_vec : Mat3
  orbital_list : List Orbital
  hopping_list : List Hopping
  scale : ℕ
deriving DecidableEq

/-- Validity invariant of the spec: every hopping's orbital indices point
into the orbital list. -/
def WellFormed (pc : PrimitiveCell) : Prop :=
  ∀ h ∈ pc.hopping_list,
    h.orb_i < pc.orbital_list.length ∧ h.orb_j < pc.orbital_list.length

instance (pc : PrimitiveCell) : Decidable (WellFormed pc) :=
  List.decidableBAll _ _

/-- Inclusive integer range, the Python range(a, b + 1). -/
def intRange (a b : ℤ) : List ℤ :=
  (List.range (b + 1 - a).toNat).map (fun k : ℕ => a + (k : ℤ))

/-! ### extend_prim_cell -/

/-- Replica of an orbital in grid cell (ia, ib, ic) of an (na, nb, nc)
supercell: position (orig + (ia, ib, ic)) / dim componentwise, same energy
(factory.py lines 69-72). -/
def extOrbital (o : Orbital) (na nb nc ia ib ic : ℕ) : Orbital :=
  ⟨((o.position.1 + (ia : ℚ)) / (na : ℚ),
    (o.position.2.1 + (ib : ℚ)) / (nb : ℚ),
    (o.position.2.2 + (ic : ℚ)) / (nc : ℚ)), o.energy⟩

/-- The orb_id_pc construction of extend_prim_cell: the nested loops over
grid cells and orbitals, listing for each new dense index the replica tuple
(ia, ib, ic, io) together with the replica orbital (factory.py lines 59-72). -/
def extEntries (pc : PrimitiveCell) (na nb nc : ℕ) :
    List ((ℕ × ℕ × ℕ × ℕ) × Orbital) :=
  (List.range na).flatMap fun ia =>
    (List.range nb).flatMap fun ib =>
      (List.range nc).flatMap fun ic =>
        pc.orbital_list.enum.map fun p =>
          ((ia, ib, ic, p.1), extOrbital p.2 na nb nc ia ib ic)

/-- First-match association-list lookup, the Python dict orb_id_sc whose
keys are inserted without repetition. -/
def dictLookup (l : List ((ℕ × ℕ × ℕ × ℕ) × ℕ)) (k : ℕ × ℕ × ℕ × ℕ) :
    Option ℕ :=
  match l with
  | [] => none
  | p :: t => if p.1 = k then some p.2 else dictLookup t k

/-- The orb_id_sc dictionary of extend_prim_cell, mapping each replica tuple
to its dense index. -/
def extPairs (pc : PrimitiveCell) (na nb nc : ℕ) :
    List ((ℕ × ℕ × ℕ × ℕ) × ℕ) :=
  (extEntries pc na nb nc).enum.map fun q => (q.2.1, q.1)

/-- The _wrap_pbc helper of extend_prim_cell: Python divmod with ji % ni and
ji // ni, which for a positive ni coincide with Euclidean mod and div. -/
def wrapPBC (ji ni : ℤ) : ℤ × ℤ :=
  (ji.emod ni, ji.ediv ni)

/-- One step of the hopping loop of extend_prim_cell (lines 79-90): for a
source replica (ia, ib, ic, io) with dense index isc and an original hopping
with matching source orbital, wrap the destination grid cell and look its
dense index up in orb_id_sc.  A failed lookup (possible only for an
out-of-range destination orbital index) produces no hopping. -/
def extHopOf (pc : PrimitiveCell) (na nb nc : ℕ) (isc : ℕ)
    (t : ℕ × ℕ × ℕ × ℕ) (h : Hopping) : Option Hopping :=
  if h.orb_i = t.2.2.2 then
    let wa := wrapPBC ((t.1 : ℤ) + h.rn.1) (na : ℤ)
    let wb := wrapPBC ((t.2.1 : ℤ) + h.rn.2.1) (nb : ℤ)
    let wc := wrapPBC ((t.2.2.1 : ℤ) + h.rn.2.2) (nc : ℤ)
    match dictLookup (extPairs pc na nb nc)
        (wa.1.toNat, wb.1.toNat, wc.1.toNat, h.orb_j) with
    | some jsc => some ⟨(wa.2, wb.2, wc.2), isc, jsc, h.energy⟩
    | none => none
  else none

/-- Body of extend_prim_cell after validation (factory.py lines 51-93):
scaled lattice vectors, replica orbitals, wrapped hoppings, and the scale
factor multiplied by the number of grid cells. -/
def extendCore (pc : PrimitiveCell) (na nb nc : ℕ) : PrimitiveCell :=
  ⟨(v3smul (na : ℚ) pc.lat_vec.1,
    v3smul (nb : ℚ) pc.lat_vec.2.1,
    v3smul (nc : ℚ) pc.lat_vec.2.2),
   (extEntries pc na nb nc).map (fun e => e.2),
   (extEntries pc na nb nc).enum.flatMap fun q =>
     pc.hopping_list.filterMap (extHopOf pc na nb nc q.1 q.2.1),
   pc.scale * (na * nb * nc)⟩

/-- extend_prim_cell (factory.py lines 31-93): reject any dimension smaller
than 1 (the ValueError of the source), otherwise build the extended cell. -/
def extend_prim_cell (pc : PrimitiveCell) (dim : IVec3) :
    Option PrimitiveCell :=
  if dim.1 < 1 ∨ dim.2.1 < 1 ∨ dim.2.2 < 1 then none
  else some (extendCore pc dim.1.toNat dim.2.1.toNat dim.2.2.toNat)

/-! ### apply_pbc -/

/-- The keep test of apply_pbc (factory.py lines 250-257): a hopping is kept
when along every non-periodic axis its offset component is zero. -/
def keepHop (pbc : Bool × Bool × Bool) (h : Hopping) : Bool :=
  (pbc.1 || decide (h.rn.1 = 0)) && (pbc.2.1 || decide (h.rn.2.1 = 0))
    && (pbc.2.2 || decide (h.rn.2.2 = 0))

/-- apply_pbc (factory.py lines 232-261): replace the hopping list by the
kept subset.  The length-3 validation of the source is enforced by the type
of the pbc triple. -/
def apply_pbc (pc : PrimitiveCell) (pbc : Bool × Bool × Bool) :
    PrimitiveCell :=
  ⟨pc.lat_vec, pc.orbital_list, pc.hopping_list.filter (keepHop pbc),
   pc.scale⟩

/-! ### trim_prim_cell -/

/-- Combined hopping-endpoint degree of orbital io, the hop_count array of
trim_prim_cell (factory.py lines 216-219): each hopping contributes one to
each of its two endpoints. -/
def degree (pc : PrimitiveCell) (io : ℕ) : ℕ :=
  pc.hopping_list.countP (fun h => decide (h.orb_i = io))
    + pc.hopping_list.countP (fun h => decide (h.orb_j = io))

/-- Modelled from the spec: PrimitiveCell.remove_orbital (builder/primitive.py
is not under the sources at hand) removes the orbital at the given index,
discards every hopping touching it, and decrements the orbital indices above
it in the surviving hoppings, as required for the compensating-offset removal
loop of the Cell Trimmer design. -/
def remove_orbital (pc : PrimitiveCell) (i : ℕ) : PrimitiveCell :=
  ⟨pc.lat_vec, pc.orbital_list.eraseIdx i,
   pc.hopping_list.filterMap fun h =>
     if h.orb_i = i ∨ h.orb_j = i then none
     else some ⟨h.rn, if i < h.orb_i then h.orb_i - 1 else h.orb_i,
                if i < h.orb_j then h.orb_j - 1 else h.orb_j, h.energy⟩,
   pc.scale⟩

/-- trim_prim_cell (factory.py lines 206-229): gather the orbitals whose
original degree is at most 1 in increasing order, then remove them one at a
time through remove_orbital, compensating each index by the number of
removals already performed. -/
def trim_prim_cell (pc : PrimitiveCell) : PrimitiveCell :=
  let orb_id_trim :=
    (List.range pc.orbital_list.length).filter (fun io => degree pc io ≤ 1)
  orb_id_trim.enum.foldl (fun cur q => remove_orbital cur (q.2 - q.1)) pc

/-! ### reshape_prim_cell -/

/-- Floor of every component, the _get_cell_index helper of
reshape_prim_cell (factory.py lines 134-136). -/
def cellIndex (v : Vec3) : IVec3 :=
  (⌊v.1⌋, ⌊v.2.1⌋, ⌊v.2.2⌋)

/-- Sum of the three rows of a matrix. -/
def rowSum3 (m : Mat3) : Vec3 :=
  v3add m.1 (v3add m.2.1 m.2.2)

/-- Lower ends of the rn_range search box of reshape_prim_cell (factory.py
lines 146-155): per axis, the minimum of 0 and the floors of the three
row-sum-minus-row vectors, padded by one. -/
def rnLoV (m : Mat3) : IVec3 :=
  let s0 := v3sub (rowSum3 m) m.1
  let s1 := v3sub (rowSum3 m) m.2.1
  let s2 := v3sub (rowSum3 m) m.2.2
  (min 0 (min ⌊s0.1⌋ (min ⌊s1.1⌋ ⌊s2.1⌋)) - 1,
   min 0 (min ⌊s0.2.1⌋ (min ⌊s1.2.1⌋ ⌊s2.2.1⌋)) - 1,
   min 0 (min ⌊s0.2.2⌋ (min ⌊s1.2.2⌋ ⌊s2.2.2⌋)) - 1)

/-- Upper ends of the rn_range search box, with ceilings and maxima. -/
def rnHiV (m : Mat3) : IVec3 :=
  let s0 := v3sub (rowSum3 m) m.1
  let s1 := v3sub (rowSum3 m) m.2.1
  let s2 := v3sub (rowSum3 m) m.2.2
  (max 0 (max ⌈s0.1⌉ (max ⌈s1.1⌉ ⌈s2.1⌉)) + 1,
   max 0 (max ⌈s0.2.1⌉ (max ⌈s1.2.1⌉ ⌈s2.2.1⌉)) + 1,
   max 0 (max ⌈s0.2.2⌉ (max ⌈s1.2.2⌉ ⌈s2.2.2⌉)) + 1)

/-- Transformed position of an orbital copy: convert rn + pos to the new
basis, subtract the origin and add the delta nudge to every component
(factory.py line 164). -/
def resPosOf (conv : Mat3) (origin : Vec3) (delta : ℚ) (rn : IVec3)
    (pos : Vec3) : Vec3 :=
  v3addC (v3sub (rowMul (iAdd rn pos) conv) origin) delta

/-- One step of the orbital loop of reshape_prim_cell (lines 162-172): keep
the copy when the integer part of its transformed position vanishes,
recording the (rn, io) tuple and the stored orbital (nudged position,
original energy). -/
def reshapeEntry (conv : Mat3) (origin : Vec3) (delta : ℚ) (rn : IVec3)
    (io : ℕ) (o : Orbital) : Option ((IVec3 × ℕ) × Orbital) :=
  if cellIndex (resPosOf conv origin delta rn o.position)
      = ((0 : ℤ), (0 : ℤ), (0 : ℤ)) then
    some ((rn, io), ⟨resPosOf conv origin delta rn o.position, o.energy⟩)
  else none

/-- The orbital search of reshape_prim_cell (factory.py lines 144-172): scan
the rn_range box in loop order and keep the qualifying copies. -/
def reshapeEntries (pc : PrimitiveCell) (lat_frac : Mat3) (origin : Vec3)
    (delta : ℚ) : List ((IVec3 × ℕ) × Orbital) :=
  (intRange (rnLoV lat_frac).1 (rnHiV lat_frac).1).flatMap fun ia =>
    (intRange (rnLoV lat_frac).2.1 (rnHiV lat_frac).2.1).flatMap fun ib =>
      (intRange (rnLoV lat_frac).2.2 (rnHiV lat_frac).2.2).flatMap fun ic =>
        pc.orbital_list.enum.filterMap fun p =>
          reshapeEntry (inv3 lat_frac) origin delta (ia, ib, ic) p.1 p.2

/-- The candidate test of the hopping loop (factory.py lines 190-194): a
kept entry is a match when it is a copy of the destination orbital and its
stored position is within pos_tol Euclidean distance of the wrapped
transformed destination.  The norm comparison of the source is embedded as
the equivalent conjunction of the nonnegativity of the tolerance and the
squared-norm comparison. -/
def candMatch (pos_tol : ℚ) (wrapped : Vec3) (j : ℕ)
    (e : (IVec3 × ℕ) × Orbital) : Prop :=
  e.1.2 = j ∧ 0 ≤ pos_tol ∧ normSq (v3sub e.2.position wrapped) ≤ pos_tol ^ 2

instance (pos_tol : ℚ) (wrapped : Vec3) (j : ℕ) (e : (IVec3 × ℕ) × Orbital) :
    Decidable (candMatch pos_tol wrapped j e) := by
  unfold candMatch; infer_instance

/-- Wrapped transformed destination of a hopping from the source copy with
tuple (rn_i, io): transform rn_i + hop offset + destination position and
subtract the integer part (factory.py lines 181-187). -/
def hopWrapped (pc : PrimitiveCell) (conv : Mat3) (origin : Vec3)
    (delta : ℚ) (rni : IVec3) (h : Hopping) : IVec3 × Vec3 :=
  (cellIndex (resPosOf conv origin delta (iAddI rni h.rn)
     (pc.orbital_list.getD h.orb_j default).position),
   v3subI (resPosOf conv origin delta (iAddI rni h.rn)
       (pc.orbital_list.getD h.orb_j default).position)
     (cellIndex (resPosOf conv origin delta (iAddI rni h.rn)
       (pc.orbital_list.getD h.orb_j default).position)))

/-- The hopping loop of reshape_prim_cell (factory.py lines 174-196): for
every kept source copy and every original hopping with matching source
orbital, add one hopping per matching candidate. -/
def reshapeHopSet (pc : PrimitiveCell) (lat_frac : Mat3) (origin : Vec3)
    (delta pos_tol : ℚ) : List Hopping :=
  (reshapeEntries pc lat_frac origin delta).enum.flatMap fun pi =>
    pc.hopping_list.flatMap fun h =>
      if h.orb_i = pi.2.1.2 then
        (reshapeEntries pc lat_frac origin delta).enum.filterMap fun pj =>
          if candMatch pos_tol
              (hopWrapped pc (inv3 lat_frac) origin delta pi.2.1.1 h).2
              h.orb_j pj.2 then
            some ⟨(hopWrapped pc (inv3 lat_frac) origin delta pi.2.1.1 h).1,
                  pi.1, pj.1, h.energy⟩
          else none
      else []

/-- Body of reshape_prim_cell for a regular basis (factory.py lines 138-203):
new lattice vectors, kept orbital copies with the delta nudge subtracted from
the stored positions at the end (lines 198-202, after the hoppings were
matched against the nudged positions), and the matched hoppings. -/
def reshapeCore (pc : PrimitiveCell) (lat_frac : Mat3)
    (origin : Vec3) (delta pos_tol : ℚ) : PrimitiveCell :=
  ⟨(rowMul lat_frac.1 pc.lat_vec,
    rowMul lat_frac.2.1 pc.lat_vec,
    rowMul lat_frac.2.2 pc.lat_vec),
   (reshapeEntries pc lat_frac origin delta).map
     (fun e => ⟨v3addC e.2.position (-delta), e.2.energy⟩),
   reshapeHopSet pc lat_frac origin delta pos_tol,
   1⟩

/-- reshape_prim_cell (factory.py lines 96-203): reject a singular basis
(the LinAlgError of np.linalg.inv), otherwise build the reshaped cell. -/
def reshape_prim_cell (pc : PrimitiveCell) (lat_frac : Mat3)
    (origin : Vec3) (delta pos_tol : ℚ) : Option PrimitiveCell :=
  if det3 lat_frac = 0 then none
  else some (reshapeCore pc lat_frac origin delta pos_tol)

/-- Instrumentation of the hopping loop of reshape_prim_cell: the number of
(kept source copy, matching original hopping) pairs whose candidate scan
finds no kept orbital within pos_tol, which the source drops silently. -/
def reshapeDropCount (pc : PrimitiveCell) (lat_frac : Mat3) (origin : Vec3)
    (delta pos_tol : ℚ) : ℕ :=
  (((reshapeEntries pc lat_frac origin delta).enum.map fun pi =>
    ((pc.hopping_list.map fun h =>
      if h.orb_i = pi.2.1.2 ∧
          ((reshapeEntries pc lat_frac origin delta).countP fun e =>
            decide (candMatch pos_tol
              (hopWrapped pc (inv3 lat_frac) origin delta pi.2.1.1 h).2
              h.orb_j e)) = 0
      then 1 else 0).sum)).sum : ℕ)


/-- Dense index of the replica (ia, ib, ic, io) in the lexicographic
enumeration of extend_prim_cell, for an orbital count N. -/
def scIndex (nb nc N ia ib ic io : ℕ) : ℕ :=
  ((ia * nb + ib) * nc + ic) * N + io

/-- Concrete two-orbital test cell of the specification (two orbitals, three
hoppings of energy -2.7). -/
def twoBandCell : PrimitiveCell :=
  ⟨id3, [⟨(0, 0, 0), 0⟩, ⟨(1/2, 1/2, 0), 1⟩],
   [⟨(0, 0, 0), 0, 1, -27/10⟩, ⟨(1, 0, 0), 1, 0, -27/10⟩,
    ⟨(0, 1, 0), 1, 0, -27/10⟩], 1⟩

/-- Concrete four-orbital open chain 0 - 1 - 2 - 3 with three hoppings. -/
def chainCell : PrimitiveCell :=
  ⟨id3, [⟨(0, 0, 0), 0⟩, ⟨(0, 0, 0), 1⟩, ⟨(0, 0, 0), 2⟩, ⟨(0, 0, 0), 3⟩],
   [⟨(0, 0, 0), 0, 1, 1⟩, ⟨(0, 0, 0), 1, 2, 1⟩, ⟨(0, 0, 0), 2, 3, 1⟩], 1⟩

/-- Concrete three-orbital cycle 0 - 1 - 2 - 0; every orbital has combined
degree 2. -/
def ringCell : PrimitiveCell :=
  ⟨id3, [⟨(0, 0, 0), 0⟩, ⟨(0, 0, 0), 1⟩, ⟨(0, 0, 0), 2⟩],
   [⟨(0, 0, 0), 0, 1, 1⟩, ⟨(0, 0, 0), 1, 2, 1⟩, ⟨(0, 0, 0), 2, 0, 1⟩], 1⟩

/-- Concrete one-orbital cell with no hoppings. -/
def oneOrbCell : PrimitiveCell :=
  ⟨id3, [⟨(0, 0, 0), 5⟩], [], 1⟩

/-- Concrete one-orbital cell with a single hopping along the first axis. -/
def oneHopCell : PrimitiveCell :=
  ⟨id3, [⟨(0, 0, 0), 5⟩], [⟨(1, 0, 0), 0, 0, -1⟩], 1⟩

/-- Concrete well-formed one-orbital cell whose orbital sits far outside
the home cell, at fractional position (53/10, 0, 0). -/
def farOrbCell : PrimitiveCell :=
  ⟨id3, [⟨(53/10, 0, 0), 5⟩], [], 1⟩

/-- Fractional basis shrinking the first lattice vector to two thirds; its
incommensurate image range makes reshape drop the hopping of oneHopCell. -/
def dropBasis : Mat3 := ((2/3, 0, 0), (0, 1, 0), (0, 0, 1))

/-- Fractional basis doubling the first lattice vector. -/
def dblBasis : Mat3 := ((2, 0, 0), (0, 1, 0), (0, 0, 1))

/-- All orbital positions lie in the half-open unit cube, the normal form
for orbitals inside the home cell. -/
def PosUnit (pc : PrimitiveCell) : Prop :=
  ∀ o ∈ pc.orbital_list,
    (0 ≤ o.position.1 ∧ o.position.1 < 1) ∧
    (0 ≤ o.position.2.1 ∧ o.position.2.1 < 1) ∧
    (0 ≤ o.position.2.2 ∧ o.position.2.2 < 1)

/-! ### General list lemmas used throughout -/

lemma sum_map_ite {α : Type} (l : List α) (P : α → Prop) [DecidablePred P] :
    (l.map (fun a => if P a then (1 : ℕ) else 0)).sum
      = l.countP (fun a => decide (P a)) := by
  induction l with
  | nil => simp
  | cons a t ih =>
    by_cases h : P a
    · simp [List.countP_cons, ih, h]
      omega
    · simp [List.countP_cons, ih, h]

lemma sum_countP_swap {α β : Type} (l : List α) (r : List β)
    (P : α → β → Prop) [∀ a b, Decidable (P a b)] :
    (r.map (fun b => l.countP (fun a => decide (P a b)))).sum
      = (l.map (fun a => r.countP (fun b => decide (P a b)))).sum := by
  induction l with
  | nil => simp
  | cons a t ih =>
    have hstep : (r.map (fun b =>
        (a :: t).countP (fun x => decide (P x b)))).sum
        = (r.map (fun b => t.countP (fun x => decide (P x b)))).sum
          + (r.map (fun b => if P a b then (1 : ℕ) else 0)).sum := by
      rw [← List.sum_map_add]
      refine congrArg List.sum (List.map_congr_left ?_)
      intro b _
      by_cases h : P a b <;> simp [List.countP_cons, h]
    rw [hstep, ih, sum_map_ite]
    simp [Nat.add_comm]

lemma length_filterMap_ite {α β : Type} (l : List α) (P : α → Prop)
    [DecidablePred P] (g : α → β) :
    (l.filterMap (fun a => if P a then some (g a) else none)).length
      = l.countP (fun a => decide (P a)) := by
  induction l with
  | nil => simp
  | cons a t ih =>
    by_cases h : P a <;> simp [List.countP_cons, ih, h]

lemma countP_filterMap_ite {α β : Type} (l : List α) (P : α → Prop)
    [DecidablePred P] (g : α → β) (Q : β → Prop) [DecidablePred Q] :
    (l.filterMap (fun a => if P a then some (g a) else none)).countP
        (fun b => decide (Q b))
      = l.countP (fun a => decide (P a ∧ Q (g a))) := by
  induction l with
  | nil => simp
  | cons a t ih =>
    by_cases h : P a
    · by_cases h2 : Q (g a) <;> simp [List.countP_cons, ih, h, h2]
    · simp [List.countP_cons, ih, h]

lemma countP_enumFrom_snd {α : Type} (l : List α) (k : ℕ) (P : α → Prop)
    [DecidablePred P] :
    (List.enumFrom k l).countP (fun q => decide (P q.2))
      = l.countP (fun a => decide (P a)) := by
  induction l generalizing k with
  | nil => simp
  | cons a t ih =>
    by_cases h : P a <;> simp [List.enumFrom_cons, List.countP_cons, ih, h]

lemma countP_enumFrom_pinned {α : Type} (R : α → Prop) [DecidablePred R]
    (j : ℕ) (l : List α) (k : ℕ) :
    (List.enumFrom k l).countP (fun q => decide (q.1 = j ∧ R q.2))
      = if j < k then 0
        else match l[j - k]? with
             | some x => if R x then 1 else 0
             | none => 0 := by
  induction l generalizing k with
  | nil => simp
  | cons a t ih =>
    rw [List.enumFrom_cons, List.countP_cons, ih (k + 1)]
    rcases Nat.lt_trichotomy j k with hlt | heq | hgt
    · have h1 : j < k + 1 := by omega
      have h2 : ¬(k = j ∧ R a) := by omega
      simp [hlt, h1, h2]
    · subst heq
      have h1 : ¬(j < j) := by omega
      have h2 : j < j + 1 := by omega
      have h3 : j - j = 0 := by omega
      by_cases hR : R a <;> simp [h1, h2, h3, hR]
    · have h1 : ¬(j < k) := by omega
      have h2 : ¬(j < k + 1) := by omega
      have h3 : ¬(k = j ∧ R a) := by omega
      have h4 : j - k = (j - (k + 1)) + 1 := by omega
      simp [h1, h2, h3, h4]

lemma getElem?_nodup_inj {α : Type} {l : List α} {i j : ℕ} {a : α}
    (hnd : l.Nodup) (h1 : l[i]? = some a) (h2 : l[j]? = some a) : i = j := by
  rcases List.getElem?_eq_some_iff.mp h1 with ⟨hi, hi2⟩
  rcases List.getElem?_eq_some_iff.mp h2 with ⟨hj, hj2⟩
  exact (hnd.getElem_inj_iff).mp (hi2.trans hj2.symm)

lemma dictLookup_mem {l : List ((ℕ × ℕ × ℕ × ℕ) × ℕ)} {k : ℕ × ℕ × ℕ × ℕ}
    {v : ℕ} (h : dictLookup l k = some v) : (k, v) ∈ l := by
  induction l with
  | nil => simp [dictLookup] at h
  | cons p t ih =>
    rw [dictLookup] at h
    by_cases hp : p.1 = k
    · simp [hp] at h
      have hpk : (k, v) = p := by
        rw [← hp, ← h]
      rw [hpk]
      exact List.mem_cons_self _ _
    · simp [hp] at h
      exact List.mem_cons_of_mem _ (ih h)

lemma dictLookup_eq_some {l : List ((ℕ × ℕ × ℕ × ℕ) × ℕ)}
    {k : ℕ × ℕ × ℕ × ℕ} {v : ℕ} (hnd : (l.map Prod.fst).Nodup)
    (hmem : (k, v) ∈ l) : dictLookup l k = some v := by
  induction l with
  | nil => simp at hmem
  | cons p t ih =>
    rw [List.map_cons] at hnd
    rcases List.mem_cons.mp hmem with heq | hmem2
    · rw [dictLookup, ← heq]
      simp
    · have hk : p.1 ≠ k := by
        intro hk
        have : k ∈ t.map Prod.fst :=
          List.mem_map.mpr ⟨(k, v), hmem2, rfl⟩
        rw [← hk] at this
        exact (List.nodup_cons.mp hnd).1 this
      rw [dictLookup]
      simp [hk]
      exact ih (List.nodup_cons.mp hnd).2 hmem2

lemma mem_intRange {a b x : ℤ} : x ∈ intRange a b ↔ a ≤ x ∧ x ≤ b := by
  unfold intRange
  rw [List.mem_map]
  constructor
  · rintro ⟨k, hk, hkx⟩
    rw [List.mem_range] at hk
    omega
  · rintro ⟨h1, h2⟩
    exact ⟨(x - a).toNat, List.mem_range.mpr (by omega), by omega⟩

lemma nodup_intRange {a b : ℤ} : (intRange a b).Nodup := by
  unfold intRange
  exact List.Nodup.map (fun x y h => by omega) (List.nodup_range _)

lemma length_flatMap_const {α β : Type} (l : List α) (f : α → List β)
    (L : ℕ) (h : ∀ a ∈ l, (f a).length = L) :
    (l.flatMap f).length = l.length * L := by
  induction l with
  | nil => simp
  | cons a t ih =>
    rw [List.flatMap_cons, List.length_append, h a (by simp),
        ih (fun x hx => h x (by simp [hx])), List.length_cons]
    ring

lemma getElem?_flatMap_range {α : Type} (f : ℕ → List α) (L : ℕ)
    (hL : ∀ k, (f k).length = L) :
    ∀ (n i r : ℕ), i < n → r < L →
      ((List.range n).flatMap f)[i * L + r]? = (f i)[r]? := by
  intro n
  induction n with
  | zero => intro i r hi; omega
  | succ m ih =>
    intro i r hi hr
    rw [List.range_succ, List.flatMap_append]
    by_cases him : i < m
    · rw [List.getElem?_append]
      have hlen : ((List.range m).flatMap f).length = m * L := by
        rw [length_flatMap_const _ _ L (fun a _ => hL a)]
        simp
      have : i * L + r < m * L := by
        have : i + 1 ≤ m := him
        calc i * L + r < i * L + L := by omega
        _ = (i + 1) * L := by ring
        _ ≤ m * L := Nat.mul_le_mul_right _ this
      rw [if_pos (by omega)]
      exact ih i r him hr
    · have heq : i = m := by omega
      subst heq
      have hlen : ((List.range i).flatMap f).length = i * L := by
        rw [length_flatMap_const _ _ L (fun a _ => hL a)]
        simp
      rw [List.getElem?_append_right (by omega)]
      simp [hlen]


/-! ### Structure of the extended cell -/

lemma rank_lt {b i r L : ℕ} (hi : i < b) (hr : r < L) : i * L + r < b * L := by
  calc i * L + r < i * L + L := by omega
  _ = (i + 1) * L := by ring
  _ ≤ b * L := Nat.mul_le_mul_right L hi

lemma extEntries_length (pc : PrimitiveCell) (na nb nc : ℕ) :
    (extEntries pc na nb nc).length
      = na * (nb * (nc * pc.orbital_list.length)) := by
  unfold extEntries
  rw [length_flatMap_const _ _ (nb * (nc * pc.orbital_list.length))
      (fun ia _ => by
        rw [length_flatMap_const _ _ (nc * pc.orbital_list.length)
            (fun ib _ => by
              rw [length_flatMap_const _ _ pc.orbital_list.length
                  (fun ic _ => by rw [List.length_map, List.enum_length]),
                List.length_range]),
          List.length_range]),
    List.length_range]

lemma getElem?_flatMap_range3 {A : Type} (g : ℕ → ℕ → ℕ → List A) (L : ℕ)
    (hL : ∀ a b c, (g a b c).length = L) {na nb nc ia ib ic r : ℕ}
    (hia : ia < na) (hib : ib < nb) (hic : ic < nc) (hr : r < L) :
    ((List.range na).flatMap fun a =>
      (List.range nb).flatMap fun b =>
        (List.range nc).flatMap fun c => g a b c)[((ia * nb + ib) * nc + ic) * L + r]?
      = (g ia ib ic)[r]? := by
  have hL2 : ∀ a b : ℕ, ((List.range nc).flatMap fun c => g a b c).length
      = nc * L := by
    intro a b
    rw [length_flatMap_const _ _ L (fun c _ => hL a b c), List.length_range]
  have hL1 : ∀ a : ℕ, ((List.range nb).flatMap fun b =>
      (List.range nc).flatMap fun c => g a b c).length = nb * (nc * L) := by
    intro a
    rw [length_flatMap_const _ _ (nc * L) (fun b _ => hL2 a b),
      List.length_range]
  have hidx : ((ia * nb + ib) * nc + ic) * L + r
      = ia * (nb * (nc * L)) + (ib * (nc * L) + (ic * L + r)) := by ring
  rw [hidx]
  rw [getElem?_flatMap_range
      (fun a => (List.range nb).flatMap fun b =>
        (List.range nc).flatMap fun c => g a b c)
      (nb * (nc * L)) hL1 na ia _ hia (rank_lt hib (rank_lt hic hr))]
  rw [getElem?_flatMap_range
      (fun b => (List.range nc).flatMap fun c => g ia b c)
      (nc * L) (hL2 ia) nb ib _ hib (rank_lt hic hr)]
  rw [getElem?_flatMap_range (fun c => g ia ib c) L (hL ia ib) nc ic _ hic hr]

lemma extEntries_getElem (pc : PrimitiveCell) {na nb nc ia ib ic io : ℕ}
    {orb : Orbital} (hia : ia < na) (hib : ib < nb) (hic : ic < nc)
    (horb : pc.orbital_list[io]? = some orb) :
    (extEntries pc na nb nc)[scIndex nb nc pc.orbital_list.length ia ib ic io]?
      = some ((ia, ib, ic, io), extOrbital orb na nb nc ia ib ic) := by
  have hio : io < pc.orbital_list.length :=
    (List.getElem?_eq_some_iff.mp horb).1
  unfold extEntries scIndex
  rw [getElem?_flatMap_range3
      (fun ia ib ic => pc.orbital_list.enum.map fun p =>
        ((ia, ib, ic, p.1), extOrbital p.2 na nb nc ia ib ic))
      pc.orbital_list.length
      (fun a b c => by rw [List.length_map, List.enum_length])
      hia hib hic hio]
  rw [List.getElem?_map, List.getElem?_enum, horb]
  rfl

lemma mem_extEntries {pc : PrimitiveCell} {na nb nc : ℕ}
    {e : (ℕ × ℕ × ℕ × ℕ) × Orbital} :
    e ∈ extEntries pc na nb nc ↔
      ∃ ia, ia < na ∧ ∃ ib, ib < nb ∧ ∃ ic, ic < nc ∧ ∃ io, ∃ orb,
        pc.orbital_list[io]? = some orb ∧
        e = ((ia, ib, ic, io), extOrbital orb na nb nc ia ib ic) := by
  unfold extEntries
  simp only [List.mem_flatMap, List.mem_range, List.mem_map,
    List.mem_enum_iff_getElem?]
  constructor
  · rintro ⟨ia, hia, ib, hib, ic, hic, p, hp, rfl⟩
    exact ⟨ia, hia, ib, hib, ic, hic, p.1, p.2, hp, rfl⟩
  · rintro ⟨ia, hia, ib, hib, ic, hic, io, orb, horb, rfl⟩
    exact ⟨ia, hia, ib, hib, ic, hic, (io, orb), horb, rfl⟩

lemma extEntries_keys (pc : PrimitiveCell) (na nb nc : ℕ) :
    (extEntries pc na nb nc).map Prod.fst
      = (List.range na).flatMap fun ia =>
          (List.range nb).flatMap fun ib =>
            (List.range nc).flatMap fun ic =>
              (List.range pc.orbital_list.length).map fun io =>
                ((ia, ib, ic, io) : ℕ × ℕ × ℕ × ℕ) := by
  unfold extEntries
  simp only [List.map_flatMap, List.map_map]
  have hrw : ∀ ia ib ic : ℕ,
      pc.orbital_list.enum.map
        ((fun q : (ℕ × ℕ × ℕ × ℕ) × Orbital => q.1) ∘ fun p =>
          ((ia, ib, ic, p.1), extOrbital p.2 na nb nc ia ib ic))
      = (List.range pc.orbital_list.length).map fun io =>
          ((ia, ib, ic, io) : ℕ × ℕ × ℕ × ℕ) := by
    intro ia ib ic
    rw [← List.enum_map_fst pc.orbital_list, List.map_map]
    rfl
  refine congrArg _ (funext fun ia => congrArg _ (funext fun ib =>
    congrArg _ (funext fun ic => ?_)))
  exact hrw ia ib ic

lemma extKeys_nodup (pc : PrimitiveCell) (na nb nc : ℕ) :
    ((extEntries pc na nb nc).map Prod.fst).Nodup := by
  rw [extEntries_keys]
  rw [List.nodup_flatMap]
  constructor
  · intro ia _
    rw [List.nodup_flatMap]
    constructor
    · intro ib _
      rw [List.nodup_flatMap]
      constructor
      · intro ic _
        exact List.Nodup.map
          (fun x y hxy => by simpa using congrArg (fun t => t.2.2.2) hxy)
          (List.nodup_range _)
      · refine (List.Pairwise.imp ?_) (List.nodup_range nc)
        intro a b hab x hxa hxb
        simp only [List.mem_map, List.mem_range] at hxa hxb
        rcases hxa with ⟨i1, _, rfl⟩
        rcases hxb with ⟨i2, _, he⟩
        exact hab (Eq.symm (by simpa using congrArg (fun t => t.2.2.1) he))
    · refine (List.Pairwise.imp ?_) (List.nodup_range nb)
      intro a b hab x hxa hxb
      simp only [List.mem_flatMap, List.mem_map, List.mem_range] at hxa hxb
      rcases hxa with ⟨c1, _, i1, _, rfl⟩
      rcases hxb with ⟨c2, _, i2, _, he⟩
      exact hab (Eq.symm (by simpa using congrArg (fun t => t.2.1) he))
  · refine (List.Pairwise.imp ?_) (List.nodup_range na)
    intro a b hab x hxa hxb
    simp only [List.mem_flatMap, List.mem_map, List.mem_range] at hxa hxb
    rcases hxa with ⟨b1, _, c1, _, i1, _, rfl⟩
    rcases hxb with ⟨b2, _, c2, _, i2, _, he⟩
    exact hab (Eq.symm (by simpa using congrArg (fun t => t.1) he))

lemma extPairs_keys (pc : PrimitiveCell) (na nb nc : ℕ) :
    (extPairs pc na nb nc).map Prod.fst
      = (extEntries pc na nb nc).map Prod.fst := by
  unfold extPairs
  rw [List.map_map]
  have h1 : ((fun q : (ℕ × ℕ × ℕ × ℕ) × ℕ => q.1) ∘
      fun q : ℕ × ((ℕ × ℕ × ℕ × ℕ) × Orbital) => (q.2.1, q.1))
      = (fun q : (ℕ × ℕ × ℕ × ℕ) × Orbital => q.1) ∘ Prod.snd := rfl
  rw [h1, ← List.map_map, List.enum_map_snd]

lemma extPairs_lookup (pc : PrimitiveCell) {na nb nc ia ib ic io : ℕ}
    (hia : ia < na) (hib : ib < nb) (hic : ic < nc)
    (hio : io < pc.orbital_list.length) :
    dictLookup (extPairs pc na nb nc) (ia, ib, ic, io)
      = some (scIndex nb nc pc.orbital_list.length ia ib ic io) := by
  have horb : pc.orbital_list[io]? = some pc.orbital_list[io] :=
    List.getElem?_eq_getElem hio
  have hget := extEntries_getElem pc hia hib hic horb
  have hmemEnum : (scIndex nb nc pc.orbital_list.length ia ib ic io,
      ((ia, ib, ic, io), extOrbital pc.orbital_list[io] na nb nc ia ib ic))
      ∈ (extEntries pc na nb nc).enum :=
    List.mem_enum_iff_getElem?.mpr hget
  have hmem : ((ia, ib, ic, io),
      scIndex nb nc pc.orbital_list.length ia ib ic io)
      ∈ extPairs pc na nb nc := by
    unfold extPairs
    exact List.mem_map.mpr ⟨_, hmemEnum, rfl⟩
  exact dictLookup_eq_some
    (by rw [extPairs_keys]; exact extKeys_nodup pc na nb nc) hmem

lemma extPairs_lookup_inv (pc : PrimitiveCell) {na nb nc : ℕ}
    {k : ℕ × ℕ × ℕ × ℕ} {v : ℕ}
    (h : dictLookup (extPairs pc na nb nc) k = some v) :
    k.1 < na ∧ k.2.1 < nb ∧ k.2.2.1 < nc ∧
      k.2.2.2 < pc.orbital_list.length ∧
      v = scIndex nb nc pc.orbital_list.length k.1 k.2.1 k.2.2.1 k.2.2.2 := by
  have hmem := dictLookup_mem h
  unfold extPairs at hmem
  rcases List.mem_map.mp hmem with ⟨q, hq, hqe⟩
  have hq2 : q.2.1 = k := congrArg Prod.fst hqe
  have hq1 : q.1 = v := congrArg Prod.snd hqe
  have hget : (extEntries pc na nb nc)[q.1]? = some q.2 :=
    List.mem_enum_iff_getElem?.mp hq
  have hmem2 : q.2 ∈ extEntries pc na nb nc := by
    rcases List.getElem?_eq_some_iff.mp hget with ⟨hlt, hval⟩
    rw [← hval]
    exact List.getElem_mem hlt
  rcases mem_extEntries.mp hmem2 with
    ⟨ia, hia, ib, hib, ic, hic, io, orb, horb, he⟩
  have hio : io < pc.orbital_list.length :=
    (List.getElem?_eq_some_iff.mp horb).1
  have hk : k = (ia, ib, ic, io) := by
    rw [← hq2, he]
  have hget2 := extEntries_getElem pc hia hib hic horb
  have hkey1 : ((extEntries pc na nb nc).map Prod.fst)[q.1]?
      = some (ia, ib, ic, io) := by
    rw [List.getElem?_map, hget, he]
    rfl
  have hkey2 : ((extEntries pc na nb nc).map Prod.fst)[scIndex nb nc
      pc.orbital_list.length ia ib ic io]? = some (ia, ib, ic, io) := by
    rw [List.getElem?_map, hget2]
    rfl
  have hpos : q.1 = scIndex nb nc pc.orbital_list.length ia ib ic io :=
    getElem?_nodup_inj (extKeys_nodup pc na nb nc) hkey1 hkey2
  subst hk
  exact ⟨hia, hib, hic, hio, by rw [← hq1, hpos]⟩

lemma extend_eq_core (pc : PrimitiveCell) {na nb nc : ℕ}
    (h1 : 1 ≤ na) (h2 : 1 ≤ nb) (h3 : 1 ≤ nc) :
    extend_prim_cell pc ((na : ℤ), (nb : ℤ), (nc : ℤ))
      = some (extendCore pc na nb nc) := by
  unfold extend_prim_cell
  dsimp only
  rw [if_neg (by push_neg; omega)]
  simp [Int.toNat_natCast]


/-! ### Counting replicas and hoppings of the extended cell -/

lemma sum_map_const_nat {α : Type} (l : List α) (g : α → ℕ) (c : ℕ)
    (h : ∀ a ∈ l, g a = c) : (l.map g).sum = l.length * c := by
  induction l with
  | nil => simp
  | cons a t ih =>
    rw [List.map_cons, List.sum_cons, h a (by simp),
      ih (fun x hx => h x (by simp [hx])), List.length_cons]
    ring

lemma countP_enum_fst_eq {α : Type} (l : List α) {j : ℕ}
    (hj : j < l.length) :
    l.enum.countP (fun q => decide (q.1 = j)) = 1 := by
  have h0 : l.enum = List.enumFrom 0 l := rfl
  have h2 := countP_enumFrom_pinned (fun _ : α => True) j l 0
  rw [h0]
  calc (List.enumFrom 0 l).countP (fun q => decide (q.1 = j))
      = (List.enumFrom 0 l).countP
          (fun q => decide (q.1 = j ∧ (fun _ : α => True) q.2)) :=
        List.countP_congr (fun q _ => by simp)
  _ = 1 := by
    rw [h2]
    simp [List.getElem?_eq_getElem hj]

lemma extEntries_countP_io (pc : PrimitiveCell) (na nb nc : ℕ) {j : ℕ}
    (hj : j < pc.orbital_list.length) :
    (extEntries pc na nb nc).countP (fun e => decide (e.1.2.2.2 = j))
      = na * nb * nc := by
  have h3 : ∀ ia ib ic : ℕ,
      (pc.orbital_list.enum.map fun p =>
        ((ia, ib, ic, p.1), extOrbital p.2 na nb nc ia ib ic)).countP
        (fun e => decide (e.1.2.2.2 = j)) = 1 := by
    intro ia ib ic
    rw [List.countP_map]
    have hc : ((fun e : (ℕ × ℕ × ℕ × ℕ) × Orbital => decide (e.1.2.2.2 = j))
        ∘ fun p : ℕ × Orbital =>
          ((ia, ib, ic, p.1), extOrbital p.2 na nb nc ia ib ic))
        = fun q : ℕ × Orbital => decide (q.1 = j) := by
      funext q; rfl
    rw [hc]
    exact countP_enum_fst_eq _ hj
  have h2 : ∀ ia ib : ℕ,
      ((List.range nc).flatMap fun ic =>
        pc.orbital_list.enum.map fun p =>
          ((ia, ib, ic, p.1), extOrbital p.2 na nb nc ia ib ic)).countP
        (fun e => decide (e.1.2.2.2 = j)) = nc := by
    intro ia ib
    rw [List.countP_flatMap]
    simp only [Function.comp_def]
    rw [sum_map_const_nat _ _ 1 (fun ic _ => h3 ia ib ic), List.length_range]
    ring
  have h1 : ∀ ia : ℕ,
      ((List.range nb).flatMap fun ib =>
        (List.range nc).flatMap fun ic =>
          pc.orbital_list.enum.map fun p =>
            ((ia, ib, ic, p.1), extOrbital p.2 na nb nc ia ib ic)).countP
        (fun e => decide (e.1.2.2.2 = j)) = nb * nc := by
    intro ia
    rw [List.countP_flatMap]
    simp only [Function.comp_def]
    rw [sum_map_const_nat _ _ nc (fun ib _ => h2 ia ib), List.length_range]
  unfold extEntries
  rw [List.countP_flatMap]
  simp only [Function.comp_def]
  rw [sum_map_const_nat _ _ (nb * nc) (fun ia _ => h1 ia), List.length_range]
  ring

lemma emod_toNat_lt {x : ℤ} {n : ℕ} (hn : 0 < n) :
    (x.emod (n : ℤ)).toNat < n := by
  have h1 : 0 ≤ x.emod n := Int.emod_nonneg x (by exact_mod_cast hn.ne')
  have h2 : x.emod n < n := Int.emod_lt_of_pos x (by exact_mod_cast hn)
  omega

lemma extHopOf_eq_ite (pc : PrimitiveCell) {na nb nc ia ib ic io : ℕ}
    (isc : ℕ) (hia : ia < na) (hib : ib < nb) (hic : ic < nc)
    (h : Hopping) (hj : h.orb_j < pc.orbital_list.length) :
    extHopOf pc na nb nc isc (ia, ib, ic, io) h
      = if h.orb_i = io then
          some ⟨((((ia : ℤ) + h.rn.1).ediv (na : ℤ)),
                 (((ib : ℤ) + h.rn.2.1).ediv (nb : ℤ)),
                 (((ic : ℤ) + h.rn.2.2).ediv (nc : ℤ))), isc,
                scIndex nb nc pc.orbital_list.length
                  (((ia : ℤ) + h.rn.1).emod (na : ℤ)).toNat
                  (((ib : ℤ) + h.rn.2.1).emod (nb : ℤ)).toNat
                  (((ic : ℤ) + h.rn.2.2).emod (nc : ℤ)).toNat
                  h.orb_j, h.energy⟩
        else none := by
  unfold extHopOf wrapPBC
  dsimp only
  by_cases hcond : h.orb_i = io
  · rw [if_pos hcond]
    have hna : (0 : ℕ) < na := by omega
    have hnb : (0 : ℕ) < nb := by omega
    have hnc : (0 : ℕ) < nc := by omega
    rw [extPairs_lookup pc (emod_toNat_lt hna) (emod_toNat_lt hnb)
      (emod_toNat_lt hnc) hj, if_pos hcond]
  · rw [if_neg hcond, if_neg hcond]

lemma extendCore_hop_length (pc : PrimitiveCell) (na nb nc : ℕ)
    (hwf : WellFormed pc) :
    (extendCore pc na nb nc).hopping_list.length
      = na * nb * nc * pc.hopping_list.length := by
  have hstep : ∀ q ∈ (extEntries pc na nb nc).enum,
      (pc.hopping_list.filterMap
        (extHopOf pc na nb nc q.1 q.2.1)).length
      = pc.hopping_list.countP (fun h => decide (h.orb_i = q.2.1.2.2.2)) := by
    intro q hq
    have hq2 : q.2 ∈ extEntries pc na nb nc := by
      have hget := List.mem_enum_iff_getElem?.mp hq
      rcases List.getElem?_eq_some_iff.mp hget with ⟨hlt, hval⟩
      rw [← hval]
      exact List.getElem_mem hlt
    rcases mem_extEntries.mp hq2 with
      ⟨ia, hia, ib, hib, ic, hic, io, orb, horb, he⟩
    have hcongr : ∀ h ∈ pc.hopping_list,
        extHopOf pc na nb nc q.1 q.2.1 h
        = if h.orb_i = q.2.1.2.2.2 then
            some ⟨((((ia : ℤ) + h.rn.1).ediv (na : ℤ)),
                   (((ib : ℤ) + h.rn.2.1).ediv (nb : ℤ)),
                   (((ic : ℤ) + h.rn.2.2).ediv (nc : ℤ))), q.1,
                  scIndex nb nc pc.orbital_list.length
                    (((ia : ℤ) + h.rn.1).emod (na : ℤ)).toNat
                    (((ib : ℤ) + h.rn.2.1).emod (nb : ℤ)).toNat
                    (((ic : ℤ) + h.rn.2.2).emod (nc : ℤ)).toNat
                    h.orb_j, h.energy⟩
          else none := by
      intro h hmem
      have hj : h.orb_j < pc.orbital_list.length := (hwf h hmem).2
      rw [he]
      exact extHopOf_eq_ite pc q.1 hia hib hic h hj
    rw [List.filterMap_congr hcongr, length_filterMap_ite]
  show ((extEntries pc na nb nc).enum.flatMap fun q =>
    pc.hopping_list.filterMap (extHopOf pc na nb nc q.1 q.2.1)).length = _
  rw [List.length_flatMap]
  rw [List.map_congr_left (fun q hq => by
    simpa using hstep q hq)]
  rw [sum_countP_swap pc.hopping_list ((extEntries pc na nb nc).enum)
    (fun h q => h.orb_i = q.2.1.2.2.2)]
  have hinner : ∀ h ∈ pc.hopping_list,
      ((extEntries pc na nb nc).enum).countP
        (fun q => decide (h.orb_i = q.2.1.2.2.2)) = na * nb * nc := by
    intro h hmem
    have hsnd := countP_enumFrom_snd (extEntries pc na nb nc) 0
      (fun e => h.orb_i = e.1.2.2.2)
    refine Eq.trans hsnd ?_
    refine Eq.trans (List.countP_congr (fun e _ => ?_))
      (extEntries_countP_io pc na nb nc (hwf h hmem).1)
    simp only [decide_eq_true_eq]
    exact eq_comm
  rw [sum_map_const_nat _ _ (na * nb * nc) hinner]
  ring


/-! ### Claims about extend_prim_cell -/

lemma enum_extEntries_inv (pc : PrimitiveCell) {na nb nc : ℕ}
    {q : ℕ × ((ℕ × ℕ × ℕ × ℕ) × Orbital)}
    (hq : q ∈ (extEntries pc na nb nc).enum) :
    ∃ ia, ia < na ∧ ∃ ib, ib < nb ∧ ∃ ic, ic < nc ∧ ∃ io, ∃ orb,
      pc.orbital_list[io]? = some orb ∧
      q = (scIndex nb nc pc.orbital_list.length ia ib ic io,
           ((ia, ib, ic, io), extOrbital orb na nb nc ia ib ic)) := by
  have hget : (extEntries pc na nb nc)[q.1]? = some q.2 :=
    List.mem_enum_iff_getElem?.mp hq
  have hmem2 : q.2 ∈ extEntries pc na nb nc := by
    rcases List.getElem?_eq_some_iff.mp hget with ⟨hlt, hval⟩
    rw [← hval]
    exact List.getElem_mem hlt
  rcases mem_extEntries.mp hmem2 with
    ⟨ia, hia, ib, hib, ic, hic, io, orb, horb, he⟩
  refine ⟨ia, hia, ib, hib, ic, hic, io, orb, horb, ?_⟩
  have hget2 := extEntries_getElem pc hia hib hic horb
  have hkey1 : ((extEntries pc na nb nc).map Prod.fst)[q.1]?
      = some (ia, ib, ic, io) := by
    rw [List.getElem?_map, hget, he]
    rfl
  have hkey2 : ((extEntries pc na nb nc).map Prod.fst)[scIndex nb nc
      pc.orbital_list.length ia ib ic io]? = some (ia, ib, ic, io) := by
    rw [List.getElem?_map, hget2]
    rfl
  have hpos : q.1 = scIndex nb nc pc.orbital_list.length ia ib ic io :=
    getElem?_nodup_inj (extKeys_nodup pc na nb nc) hkey1 hkey2
  exact Prod.ext hpos he

/-- C3: for every cell and dimension triple with components at least 1,
extend_prim_cell succeeds; the result has the lattice vectors scaled per
axis by the dimensions and exactly na * nb * nc * N orbitals, and the
replica of orbital io in grid cell (ia, ib, ic) sits at the lexicographic
dense index with fractional position (original + (ia, ib, ic)) / dim
componentwise and the original energy. -/
theorem claim_C3 (pc : PrimitiveCell) {na nb nc ia ib ic io : ℕ}
    {orb : Orbital} (hia : ia < na) (hib : ib < nb) (hic : ic < nc)
    (horb : pc.orbital_list[io]? = some orb) :
    extend_prim_cell pc ((na : ℤ), (nb : ℤ), (nc : ℤ))
      = some (extendCore pc na nb nc) ∧
    (extendCore pc na nb nc).lat_vec
      = (v3smul (na : ℚ) pc.lat_vec.1, v3smul (nb : ℚ) pc.lat_vec.2.1,
         v3smul (nc : ℚ) pc.lat_vec.2.2) ∧
    (extendCore pc na nb nc).orbital_list.length
      = na * nb * nc * pc.orbital_list.length ∧
    (extendCore pc na nb nc).orbital_list[scIndex nb nc
        pc.orbital_list.length ia ib ic io]?
      = some ⟨((orb.position.1 + (ia : ℚ)) / (na : ℚ),
               (orb.position.2.1 + (ib : ℚ)) / (nb : ℚ),
               (orb.position.2.2 + (ic : ℚ)) / (nc : ℚ)), orb.energy⟩ := by
  refine ⟨extend_eq_core pc (by omega) (by omega) (by omega), rfl, ?_, ?_⟩
  · show ((extEntries pc na nb nc).map (fun e => e.2)).length = _
    rw [List.length_map, extEntries_length]
    ring
  · show ((extEntries pc na nb nc).map (fun e => e.2))[scIndex nb nc
        pc.orbital_list.length ia ib ic io]? = _
    rw [List.getElem?_map, extEntries_getElem pc hia hib hic horb]
    rfl

/-- Witness for C3: the two-band test cell extended along the first axis. -/
theorem claim_C3_witness :
    ((1 : ℕ) < 2 ∧ (0 : ℕ) < 1 ∧
      twoBandCell.orbital_list[1]? = some ⟨(1/2, 1/2, 0), 1⟩) ∧
    (extend_prim_cell twoBandCell
        (((2 : ℕ) : ℤ), ((1 : ℕ) : ℤ), ((1 : ℕ) : ℤ))
      = some (extendCore twoBandCell 2 1 1) ∧
    (extendCore twoBandCell 2 1 1).lat_vec
      = (v3smul ((2 : ℕ) : ℚ) twoBandCell.lat_vec.1,
         v3smul ((1 : ℕ) : ℚ) twoBandCell.lat_vec.2.1,
         v3smul ((1 : ℕ) : ℚ) twoBandCell.lat_vec.2.2) ∧
    (extendCore twoBandCell 2 1 1).orbital_list.length
      = 2 * 1 * 1 * twoBandCell.orbital_list.length ∧
    (extendCore twoBandCell 2 1 1).orbital_list[scIndex 1 1
        twoBandCell.orbital_list.length 1 0 0 1]?
      = some ⟨((1/2 + ((1 : ℕ) : ℚ)) / ((2 : ℕ) : ℚ),
               (1/2 + ((0 : ℕ) : ℚ)) / ((1 : ℕ) : ℚ),
               (0 + ((0 : ℕ) : ℚ)) / ((1 : ℕ) : ℚ)), 1⟩) :=
  ⟨⟨by decide, by decide, by rfl⟩,
   @claim_C3 twoBandCell 2 1 1 1 0 0 1 ⟨(1/2, 1/2, 0), 1⟩
     (by decide) (by decide) (by decide) (by rfl)⟩

/-- C9: the replica list orb_id_pc of extend_prim_cell holds the tuple
(ia, ib, ic, io) exactly at index ((ia*nb+ib)*nc+ic)*N + io, the orb_id_sc
dictionary maps the tuple back to that index, and for dimension (1,1,1)
every orbital keeps its original dense index. -/
theorem claim_C9 (pc : PrimitiveCell) {na nb nc ia ib ic io : ℕ}
    (hia : ia < na) (hib : ib < nb) (hic : ic < nc)
    (hio : io < pc.orbital_list.length) :
    ((extEntries pc na nb nc).map Prod.fst)[((ia * nb + ib) * nc + ic)
        * pc.orbital_list.length + io]? = some (ia, ib, ic, io) ∧
    dictLookup (extPairs pc na nb nc) (ia, ib, ic, io)
      = some (((ia * nb + ib) * nc + ic) * pc.orbital_list.length + io) ∧
    scIndex 1 1 pc.orbital_list.length 0 0 0 io = io := by
  have horb : pc.orbital_list[io]? = some pc.orbital_list[io] :=
    List.getElem?_eq_getElem hio
  have hidx : ((ia * nb + ib) * nc + ic) * pc.orbital_list.length + io
      = scIndex nb nc pc.orbital_list.length ia ib ic io := rfl
  rw [hidx]
  refine ⟨?_, extPairs_lookup pc hia hib hic hio, by simp [scIndex]⟩
  rw [List.getElem?_map, extEntries_getElem pc hia hib hic horb]
  rfl

/-- Witness for C9 at the two-band cell with dimension (2, 1, 1). -/
theorem claim_C9_witness :
    ((1 : ℕ) < 2 ∧ (1 : ℕ) < twoBandCell.orbital_list.length) ∧
    (((extEntries twoBandCell 2 1 1).map Prod.fst)[((1 * 1 + 0) * 1 + 0)
        * twoBandCell.orbital_list.length + 1]? = some (1, 0, 0, 1) ∧
    dictLookup (extPairs twoBandCell 2 1 1) (1, 0, 0, 1)
      = some (((1 * 1 + 0) * 1 + 0) * twoBandCell.orbital_list.length + 1) ∧
    scIndex 1 1 twoBandCell.orbital_list.length 0 0 0 1 = 1) :=
  ⟨⟨by decide, by decide⟩,
   claim_C9 twoBandCell (by decide) (by decide) (by decide) (by decide)⟩

lemma extend_one (pc : PrimitiveCell) :
    extend_prim_cell pc (1, 1, 1) = some (extendCore pc 1 1 1) := by
  unfold extend_prim_cell
  norm_num

lemma extEntries_one (pc : PrimitiveCell) :
    extEntries pc 1 1 1 = pc.orbital_list.enum.map
      (fun p => ((0, 0, 0, p.1), extOrbital p.2 1 1 1 0 0 0)) := by
  unfold extEntries
  have h1 : List.range 1 = [0] := rfl
  rw [h1]
  simp

/-- C5: extending a well-formed cell with dimension (1, 1, 1) succeeds and
preserves the orbital count, the hopping count and the per-orbital
energies. -/
theorem claim_C5 (pc : PrimitiveCell) (hwf : WellFormed pc) :
    extend_prim_cell pc (1, 1, 1) = some (extendCore pc 1 1 1) ∧
    (extendCore pc 1 1 1).orbital_list.length = pc.orbital_list.length ∧
    (extendCore pc 1 1 1).hopping_list.length = pc.hopping_list.length ∧
    (extendCore pc 1 1 1).orbital_list.map Orbital.energy
      = pc.orbital_list.map Orbital.energy := by
  refine ⟨extend_one pc, ?_, ?_, ?_⟩
  · show ((extEntries pc 1 1 1).map (fun e => e.2)).length = _
    rw [List.length_map, extEntries_length]
    ring
  · rw [extendCore_hop_length pc 1 1 1 hwf]
    ring
  · show ((extEntries pc 1 1 1).map (fun e => e.2)).map Orbital.energy = _
    rw [extEntries_one, List.map_map, List.map_map]
    have hc : ((Orbital.energy ∘ fun e : (ℕ × ℕ × ℕ × ℕ) × Orbital => e.2)
        ∘ fun p : ℕ × Orbital =>
          ((0, 0, 0, p.1), extOrbital p.2 1 1 1 0 0 0))
        = Orbital.energy ∘ Prod.snd := by
      funext p
      rfl
    rw [hc, ← List.map_map, List.enum_map_snd]

/-- Witness for C5 at the two-band test cell. -/
theorem claim_C5_witness :
    WellFormed twoBandCell ∧
    (extend_prim_cell twoBandCell (1, 1, 1)
        = some (extendCore twoBandCell 1 1 1) ∧
    (extendCore twoBandCell 1 1 1).orbital_list.length
      = twoBandCell.orbital_list.length ∧
    (extendCore twoBandCell 1 1 1).hopping_list.length
      = twoBandCell.hopping_list.length ∧
    (extendCore twoBandCell 1 1 1).orbital_list.map Orbital.energy
      = twoBandCell.orbital_list.map Orbital.energy) :=
  ⟨by decide, claim_C5 twoBandCell (by decide)⟩


/-- C4: for every cell and dimension triple with components at least 1,
extend_prim_cell succeeds, and the hoppings of the result are exactly those
obtained from an original hopping with in-range orbital indices and a grid
cell owning the source replica: the destination grid cell is wrapped with
mod, the floor quotient becomes the new cell offset, and the original
energy is kept. -/
theorem claim_C4 (pc : PrimitiveCell) {na nb nc : ℕ}
    (h1 : 1 ≤ na) (h2 : 1 ≤ nb) (h3 : 1 ≤ nc) :
    extend_prim_cell pc ((na : ℤ), (nb : ℤ), (nc : ℤ))
      = some (extendCore pc na nb nc) ∧
    ∀ hop : Hopping, hop ∈ (extendCore pc na nb nc).hopping_list ↔
      ∃ h, h ∈ pc.hopping_list ∧ ∃ ia, ia < na ∧ ∃ ib, ib < nb ∧
        ∃ ic, ic < nc ∧ h.orb_i < pc.orbital_list.length ∧
        h.orb_j < pc.orbital_list.length ∧
        hop = ⟨(((ia : ℤ) + h.rn.1).ediv (na : ℤ),
                ((ib : ℤ) + h.rn.2.1).ediv (nb : ℤ),
                ((ic : ℤ) + h.rn.2.2).ediv (nc : ℤ)),
               scIndex nb nc pc.orbital_list.length ia ib ic h.orb_i,
               scIndex nb nc pc.orbital_list.length
                 (((ia : ℤ) + h.rn.1).emod (na : ℤ)).toNat
                 (((ib : ℤ) + h.rn.2.1).emod (nb : ℤ)).toNat
                 (((ic : ℤ) + h.rn.2.2).emod (nc : ℤ)).toNat h.orb_j,
               h.energy⟩ := by
  refine ⟨extend_eq_core pc h1 h2 h3, fun hop => ?_⟩
  constructor
  · intro hmem
    have hmem2 : hop ∈ (extEntries pc na nb nc).enum.flatMap fun q =>
        pc.hopping_list.filterMap (extHopOf pc na nb nc q.1 q.2.1) := hmem
    rcases List.mem_flatMap.mp hmem2 with ⟨q, hq, hin⟩
    rcases List.mem_filterMap.mp hin with ⟨h, hmem3, hsome⟩
    rcases enum_extEntries_inv pc hq with
      ⟨ia, hia, ib, hib, ic, hic, io, orb, horb, hqe⟩
    have hio : io < pc.orbital_list.length :=
      (List.getElem?_eq_some_iff.mp horb).1
    subst hqe
    unfold extHopOf wrapPBC at hsome
    dsimp only at hsome
    by_cases hcond : h.orb_i = io
    · rw [if_pos hcond] at hsome
      rcases hdl : dictLookup (extPairs pc na nb nc)
          ((((ia : ℤ) + h.rn.1).emod (na : ℤ)).toNat,
           (((ib : ℤ) + h.rn.2.1).emod (nb : ℤ)).toNat,
           (((ic : ℤ) + h.rn.2.2).emod (nc : ℤ)).toNat, h.orb_j) with _ | jsc
      · rw [hdl] at hsome
        simp at hsome
      · rw [hdl] at hsome
        have hinv := extPairs_lookup_inv pc hdl
        dsimp only at hinv
        refine ⟨h, hmem3, ia, hia, ib, hib, ic, hic, by omega,
          hinv.2.2.2.1, ?_⟩
        have heq := Option.some.inj hsome
        rw [← heq, hinv.2.2.2.2, hcond]
    · rw [if_neg hcond] at hsome
      simp at hsome
  · rintro ⟨h, hmem, ia, hia, ib, hib, ic, hic, hi, hj, rfl⟩
    have hmem2 : (⟨(((ia : ℤ) + h.rn.1).ediv (na : ℤ),
                ((ib : ℤ) + h.rn.2.1).ediv (nb : ℤ),
                ((ic : ℤ) + h.rn.2.2).ediv (nc : ℤ)),
               scIndex nb nc pc.orbital_list.length ia ib ic h.orb_i,
               scIndex nb nc pc.orbital_list.length
                 (((ia : ℤ) + h.rn.1).emod (na : ℤ)).toNat
                 (((ib : ℤ) + h.rn.2.1).emod (nb : ℤ)).toNat
                 (((ic : ℤ) + h.rn.2.2).emod (nc : ℤ)).toNat h.orb_j,
               h.energy⟩ : Hopping)
        ∈ (extEntries pc na nb nc).enum.flatMap fun q =>
          pc.hopping_list.filterMap (extHopOf pc na nb nc q.1 q.2.1) := by
      apply List.mem_flatMap.mpr
      refine ⟨(scIndex nb nc pc.orbital_list.length ia ib ic h.orb_i,
               ((ia, ib, ic, h.orb_i),
                extOrbital pc.orbital_list[h.orb_i] na nb nc ia ib ic)),
              ?_, ?_⟩
      · exact List.mem_enum_iff_getElem?.mpr
          (extEntries_getElem pc hia hib hic (List.getElem?_eq_getElem hi))
      · apply List.mem_filterMap.mpr
        refine ⟨h, hmem, ?_⟩
        rw [extHopOf_eq_ite pc _ hia hib hic h hj, if_pos rfl]
    exact hmem2

/-- Witness for C4 at the two-band cell with dimension (2, 1, 1). -/
theorem claim_C4_witness :
    ((1 : ℕ) ≤ 2 ∧ (1 : ℕ) ≤ 1) ∧
    (extend_prim_cell twoBandCell
        (((2 : ℕ) : ℤ), ((1 : ℕ) : ℤ), ((1 : ℕ) : ℤ))
      = some (extendCore twoBandCell 2 1 1) ∧
    ∀ hop : Hopping, hop ∈ (extendCore twoBandCell 2 1 1).hopping_list ↔
      ∃ h, h ∈ twoBandCell.hopping_list ∧ ∃ ia : ℕ, ia < 2 ∧
        ∃ ib : ℕ, ib < 1 ∧ ∃ ic : ℕ, ic < 1 ∧
        h.orb_i < twoBandCell.orbital_list.length ∧
        h.orb_j < twoBandCell.orbital_list.length ∧
        hop = ⟨(((ia : ℤ) + h.rn.1).ediv ((2 : ℕ) : ℤ),
                ((ib : ℤ) + h.rn.2.1).ediv ((1 : ℕ) : ℤ),
                ((ic : ℤ) + h.rn.2.2).ediv ((1 : ℕ) : ℤ)),
               scIndex 1 1 twoBandCell.orbital_list.length ia ib ic h.orb_i,
               scIndex 1 1 twoBandCell.orbital_list.length
                 (((ia : ℤ) + h.rn.1).emod ((2 : ℕ) : ℤ)).toNat
                 (((ib : ℤ) + h.rn.2.1).emod ((1 : ℕ) : ℤ)).toNat
                 (((ic : ℤ) + h.rn.2.2).emod ((1 : ℕ) : ℤ)).toNat h.orb_j,
               h.energy⟩) :=
  ⟨⟨by decide, by decide⟩,
   claim_C4 twoBandCell (by decide) (by decide) (by decide)⟩


/-! ### Claims about apply_pbc and trim_prim_cell -/

/-- C6: apply_pbc keeps exactly the hoppings whose cell offset vanishes
along every non-periodic axis: the result is a sublist of the input (nothing
is ever added), membership is characterised by the zero-offset condition on
non-periodic axes, applying it twice with the same vector equals applying
it once, and with (true, true, true) the cell is unchanged. -/
theorem claim_C6 (pc : PrimitiveCell) (pbc : Bool × Bool × Bool) :
    (apply_pbc pc pbc).hopping_list.Sublist pc.hopping_list ∧
    (∀ h : Hopping, h ∈ (apply_pbc pc pbc).hopping_list ↔
      h ∈ pc.hopping_list ∧
        (pbc.1 = true ∨ h.rn.1 = 0) ∧ (pbc.2.1 = true ∨ h.rn.2.1 = 0) ∧
        (pbc.2.2 = true ∨ h.rn.2.2 = 0)) ∧
    apply_pbc (apply_pbc pc pbc) pbc = apply_pbc pc pbc ∧
    apply_pbc pc (true, true, true) = pc := by
  refine ⟨List.filter_sublist _, ?_, ?_, ?_⟩
  · intro h
    show h ∈ pc.hopping_list.filter (keepHop pbc) ↔ _
    rw [List.mem_filter]
    unfold keepHop
    simp [Bool.or_eq_true, Bool.and_eq_true, decide_eq_true_eq, and_assoc]
  · show PrimitiveCell.mk pc.lat_vec pc.orbital_list
      ((pc.hopping_list.filter (keepHop pbc)).filter (keepHop pbc)) pc.scale
      = PrimitiveCell.mk pc.lat_vec pc.orbital_list
        (pc.hopping_list.filter (keepHop pbc)) pc.scale
    rw [List.filter_filter]
    have hp : ∀ x ∈ pc.hopping_list,
        (keepHop pbc x && keepHop pbc x) = keepHop pbc x := by
      intro x _
      rw [Bool.and_self]
    rw [List.filter_congr hp]
  · show PrimitiveCell.mk pc.lat_vec pc.orbital_list
      (pc.hopping_list.filter (keepHop (true, true, true))) pc.scale = pc
    have hall : pc.hopping_list.filter (keepHop (true, true, true))
        = pc.hopping_list := by
      have hp : ∀ x ∈ pc.hopping_list,
          keepHop (true, true, true) x = (fun _ => true) x := by
        intro x _
        rfl
      rw [List.filter_congr hp, List.filter_true]
    rw [hall]

/-- C1 counterexample: on the four-orbital open chain, one application of
trim_prim_cell removes only the two chain ends; both surviving orbitals then
have combined degree 1, and a second application removes them as well, so
trim is not idempotent and a trimmed model can retain orbitals of degree at
most 1 - the claim fails on both counts. -/
theorem claim_C1_counterexample :
    (trim_prim_cell chainCell).orbital_list.length = 2 ∧
    degree (trim_prim_cell chainCell) 0 = 1 ∧
    degree (trim_prim_cell chainCell) 1 = 1 ∧
    (trim_prim_cell (trim_prim_cell chainCell)).orbital_list.length = 0 ∧
    trim_prim_cell (trim_prim_cell chainCell) ≠ trim_prim_cell chainCell := by
  refine ⟨by decide, by decide, by decide, by decide, ?_⟩
  intro he
  have hlen := congrArg (fun c => c.orbital_list.length) he
  exact absurd hlen (by decide)

lemma trim_noop (pc : PrimitiveCell)
    (hdeg : ∀ io < pc.orbital_list.length, 2 ≤ degree pc io) :
    trim_prim_cell pc = pc := by
  unfold trim_prim_cell
  have hfil : (List.range pc.orbital_list.length).filter
      (fun io => degree pc io ≤ 1) = [] := by
    rw [List.filter_eq_nil_iff]
    intro a ha
    rw [List.mem_range] at ha
    simp only [decide_eq_true_eq]
    have := hdeg a ha
    omega
  rw [hfil]
  rfl

/-- C1 amended: trim_prim_cell removes exactly the orbitals whose original
combined hopping-endpoint degree is at most 1; it is a no-op on a model
whose every orbital has degree at least 2, so applying it twice agrees with
applying it once whenever the once-trimmed model retains no orbital of
degree at most 1.  (Unconditional idempotence fails: removal is computed
from the original degree counts, and deleting a low-degree orbital can push
a surviving neighbour's degree below 2, as the counterexample shows.) -/
theorem claim_C1 (pc : PrimitiveCell)
    (hdeg : ∀ io < (trim_prim_cell pc).orbital_list.length,
      2 ≤ degree (trim_prim_cell pc) io) :
    trim_prim_cell (trim_prim_cell pc) = trim_prim_cell pc :=
  trim_noop (trim_prim_cell pc) hdeg

/-- Witness for C1 at the three-orbital cycle, where every orbital keeps
degree 2 after trimming. -/
theorem claim_C1_witness :
    (∀ io < (trim_prim_cell ringCell).orbital_list.length,
      2 ≤ degree (trim_prim_cell ringCell) io) ∧
    trim_prim_cell (trim_prim_cell ringCell) = trim_prim_cell ringCell :=
  ⟨by decide, claim_C1 ringCell (by decide)⟩


/-! ### Structure of the reshaped cell -/

lemma reshapeEntry_eq_ite (conv : Mat3) (origin : Vec3) (delta : ℚ)
    (rn : IVec3) (io : ℕ) (o : Orbital) :
    reshapeEntry conv origin delta rn io o
      = if cellIndex (resPosOf conv origin delta rn o.position)
            = ((0 : ℤ), (0 : ℤ), (0 : ℤ)) then
          some ((rn, io),
            ⟨resPosOf conv origin delta rn o.position, o.energy⟩)
        else none := rfl

lemma mem_reshapeEntries {pc : PrimitiveCell} {lat_frac : Mat3}
    {origin : Vec3} {delta : ℚ} {e : (IVec3 × ℕ) × Orbital} :
    e ∈ reshapeEntries pc lat_frac origin delta ↔
      ∃ ia ib ic : ℤ,
        ((rnLoV lat_frac).1 ≤ ia ∧ ia ≤ (rnHiV lat_frac).1) ∧
        ((rnLoV lat_frac).2.1 ≤ ib ∧ ib ≤ (rnHiV lat_frac).2.1) ∧
        ((rnLoV lat_frac).2.2 ≤ ic ∧ ic ≤ (rnHiV lat_frac).2.2) ∧
        ∃ io, ∃ orb, pc.orbital_list[io]? = some orb ∧
          cellIndex (resPosOf (inv3 lat_frac) origin delta (ia, ib, ic)
            orb.position) = ((0 : ℤ), (0 : ℤ), (0 : ℤ)) ∧
          e = (((ia, ib, ic), io),
               ⟨resPosOf (inv3 lat_frac) origin delta (ia, ib, ic)
                  orb.position, orb.energy⟩) := by
  unfold reshapeEntries
  simp only [List.mem_flatMap, mem_intRange, List.mem_filterMap,
    List.mem_enum_iff_getElem?]
  constructor
  · rintro ⟨ia, hia, ib, hib, ic, hic, p, hp, hsome⟩
    rw [reshapeEntry_eq_ite] at hsome
    by_cases hc : cellIndex (resPosOf (inv3 lat_frac) origin delta
        (ia, ib, ic) p.2.position) = ((0 : ℤ), (0 : ℤ), (0 : ℤ))
    · rw [if_pos hc] at hsome
      exact ⟨ia, ib, ic, hia, hib, hic, p.1, p.2, hp, hc,
        (Option.some.inj hsome).symm⟩
    · rw [if_neg hc] at hsome
      simp at hsome
  · rintro ⟨ia, ib, ic, hia, hib, hic, io, orb, horb, hc, he⟩
    refine ⟨ia, hia, ib, hib, ic, hic, (io, orb), horb, ?_⟩
    rw [reshapeEntry_eq_ite, if_pos hc, he]

lemma reshapeEntries_eq_box (pc : PrimitiveCell) (lat_frac : Mat3)
    (origin : Vec3) (delta : ℚ) :
    reshapeEntries pc lat_frac origin delta
      = ((intRange (rnLoV lat_frac).1 (rnHiV lat_frac).1).flatMap fun ia =>
          (intRange (rnLoV lat_frac).2.1 (rnHiV lat_frac).2.1).flatMap
            fun ib =>
            (intRange (rnLoV lat_frac).2.2 (rnHiV lat_frac).2.2).map
              fun ic => ((ia, ib, ic) : IVec3)).flatMap fun rn =>
        pc.orbital_list.enum.filterMap fun p =>
          reshapeEntry (inv3 lat_frac) origin delta rn p.1 p.2 := by
  unfold reshapeEntries
  simp only [List.flatMap_assoc, List.flatMap_map]

lemma mem_rnBox {lat_frac : Mat3} {rn : IVec3} :
    rn ∈ ((intRange (rnLoV lat_frac).1 (rnHiV lat_frac).1).flatMap fun ia =>
        (intRange (rnLoV lat_frac).2.1 (rnHiV lat_frac).2.1).flatMap
          fun ib =>
          (intRange (rnLoV lat_frac).2.2 (rnHiV lat_frac).2.2).map
            fun ic => ((ia, ib, ic) : IVec3)) ↔
      ((rnLoV lat_frac).1 ≤ rn.1 ∧ rn.1 ≤ (rnHiV lat_frac).1) ∧
      ((rnLoV lat_frac).2.1 ≤ rn.2.1 ∧ rn.2.1 ≤ (rnHiV lat_frac).2.1) ∧
      ((rnLoV lat_frac).2.2 ≤ rn.2.2 ∧ rn.2.2 ≤ (rnHiV lat_frac).2.2) := by
  simp only [List.mem_flatMap, List.mem_map, mem_intRange]
  constructor
  · rintro ⟨ia, hia, ib, hib, ic, hic, rfl⟩
    exact ⟨hia, hib, hic⟩
  · rintro ⟨hia, hib, hic⟩
    exact ⟨rn.1, hia, rn.2.1, hib, rn.2.2, hic, rfl⟩

lemma nodup_rnBox (lat_frac : Mat3) :
    ((intRange (rnLoV lat_frac).1 (rnHiV lat_frac).1).flatMap fun ia =>
        (intRange (rnLoV lat_frac).2.1 (rnHiV lat_frac).2.1).flatMap
          fun ib =>
          (intRange (rnLoV lat_frac).2.2 (rnHiV lat_frac).2.2).map
            fun ic => ((ia, ib, ic) : IVec3)).Nodup := by
  rw [List.nodup_flatMap]
  constructor
  · intro ia _
    rw [List.nodup_flatMap]
    constructor
    · intro ib _
      exact List.Nodup.map
        (fun x y hxy => by
          simpa using congrArg (fun t : IVec3 => t.2.2) hxy)
        nodup_intRange
    · refine (List.Pairwise.imp ?_) nodup_intRange
      intro a b hab x hxa hxb
      simp only [List.mem_map, mem_intRange] at hxa hxb
      rcases hxa with ⟨c1, _, rfl⟩
      rcases hxb with ⟨c2, _, he⟩
      exact hab (Eq.symm (by
        simpa using congrArg (fun t : IVec3 => t.2.1) he))
  · refine (List.Pairwise.imp ?_) nodup_intRange
    intro a b hab x hxa hxb
    simp only [List.mem_flatMap, List.mem_map, mem_intRange] at hxa hxb
    rcases hxa with ⟨b1, _, c1, _, rfl⟩
    rcases hxb with ⟨b2, _, c2, _, he⟩
    exact hab (Eq.symm (by
      simpa using congrArg (fun t : IVec3 => t.1) he))

lemma reshapeHopSet_length (pc : PrimitiveCell) (lat_frac : Mat3)
    (origin : Vec3) (delta pos_tol : ℚ) :
    (reshapeHopSet pc lat_frac origin delta pos_tol).length
      = ((reshapeEntries pc lat_frac origin delta).enum.map (fun pi =>
          (pc.hopping_list.map (fun h =>
            if h.orb_i = pi.2.1.2 then
              (reshapeEntries pc lat_frac origin delta).enum.countP
                (fun pj => decide (candMatch pos_tol
                  (hopWrapped pc (inv3 lat_frac) origin delta pi.2.1.1 h).2
                  h.orb_j pj.2))
            else 0)).sum)).sum := by
  unfold reshapeHopSet
  rw [List.length_flatMap]
  refine congrArg List.sum (List.map_congr_left ?_)
  intro pi _
  simp only [Function.comp_def]
  rw [List.length_flatMap]
  refine congrArg List.sum (List.map_congr_left ?_)
  intro h _
  simp only [Function.comp_def]
  by_cases hcond : h.orb_i = pi.2.1.2
  · rw [if_pos hcond, if_pos hcond, length_filterMap_ite]
  · rw [if_neg hcond, if_neg hcond]
    rfl


/-! ### Claim C8: silence of dropped hoppings -/
lemma flatMap_const_nil {α β : Type} (l : List α) :
    l.flatMap (fun _ => ([] : List β)) = [] := by
  induction l with
  | nil => rfl
  | cons a t ih => simp [ih]

set_option maxHeartbeats 2000000 in
lemma dropBasis_entries :
    reshapeEntries oneHopCell dropBasis (0, 0, 0) (1/100)
      = [(((0, 0, 0), 0), ⟨(1/100, 1/100, 1/100), 5⟩)] := by
  have hconv : inv3 dropBasis = ((3/2, 0, 0), (0, 1, 0), (0, 0, 1)) := by
    norm_num [inv3, det3, dropBasis, Prod.ext_iff]
  have hlo : rnLoV dropBasis = (-1, -1, -1) := by
    norm_num [rnLoV, rowSum3, v3add, v3sub, dropBasis, Int.floor_eq_iff,
      Prod.ext_iff]
  have hhi : rnHiV dropBasis = (2, 2, 2) := by
    have hc : (⌈(2 : ℚ)/3⌉ : ℤ) = 1 := by
      rw [Int.ceil_eq_iff]
      norm_num
    norm_num [rnHiV, rowSum3, v3add, v3sub, dropBasis, hc, Prod.ext_iff]
  have hrange : intRange (-1) 2 = [-1, 0, 1, 2] := rfl
  have henum : oneHopCell.orbital_list.enum = [(0, ⟨(0, 0, 0), 5⟩)] := rfl
  unfold reshapeEntries
  rw [hconv, hlo, hhi, hrange, henum]
  simp only [List.flatMap_cons, List.flatMap_nil, List.append_nil]
  norm_num [reshapeEntry, resPosOf, rowMul, iAdd, v3addC, v3sub, cellIndex,
    List.filterMap_cons, List.filterMap_nil, Int.floor_eq_iff, Prod.ext_iff]

lemma oneHop_hopset :
    reshapeHopSet oneHopCell dropBasis (0, 0, 0) (1/100) (1/100000)
      = [] := by
  have hconv : inv3 dropBasis = ((3/2, 0, 0), (0, 1, 0), (0, 0, 1)) := by
    norm_num [inv3, det3, dropBasis, Prod.ext_iff]
  have hfl : (⌊(151 : ℚ)/100⌋ : ℤ) = 1 := by
    norm_num [Int.floor_eq_iff]
  have hf : Int.fract ((151 : ℚ)/100) = 51/100 := by
    unfold Int.fract
    rw [hfl]
    norm_num
  unfold reshapeHopSet
  rw [dropBasis_entries, hconv]
  norm_num [List.enum, List.enumFrom, List.flatMap_cons, List.flatMap_nil,
    List.filterMap_cons, List.filterMap_nil, candMatch, hopWrapped,
    resPosOf, rowMul, iAdd, iAddI, v3addC, v3sub, v3subI, normSq, cellIndex,
    oneHopCell, Int.floor_eq_iff, hf]

lemma noHop_hopset :
    reshapeHopSet oneOrbCell dropBasis (0, 0, 0) (1/100) (1/100000)
      = [] := by
  unfold reshapeHopSet
  have hh : oneOrbCell.hopping_list = [] := rfl
  rw [hh]
  simp only [List.flatMap_nil]
  exact flatMap_const_nil _

lemma oneHop_dropcount :
    reshapeDropCount oneHopCell dropBasis (0, 0, 0) (1/100) (1/100000)
      = 1 := by
  have hconv : inv3 dropBasis = ((3/2, 0, 0), (0, 1, 0), (0, 0, 1)) := by
    norm_num [inv3, det3, dropBasis, Prod.ext_iff]
  have hfl : (⌊(151 : ℚ)/100⌋ : ℤ) = 1 := by
    norm_num [Int.floor_eq_iff]
  have hf : Int.fract ((151 : ℚ)/100) = 51/100 := by
    unfold Int.fract
    rw [hfl]
    norm_num
  unfold reshapeDropCount
  rw [dropBasis_entries, hconv]
  norm_num [List.enum, List.enumFrom, List.countP_cons, List.countP_nil,
    candMatch, hopWrapped, resPosOf, rowMul, iAdd, iAddI, v3addC, v3sub,
    v3subI, normSq, cellIndex, oneHopCell, Int.floor_eq_iff, hf]

lemma noHop_dropcount :
    reshapeDropCount oneOrbCell dropBasis (0, 0, 0) (1/100) (1/100000)
      = 0 := by
  unfold reshapeDropCount
  have hh : oneOrbCell.hopping_list = [] := rfl
  rw [hh]
  simp [sum_map_const_nat _ _ 0 (fun a _ => rfl)]

/-- C8 counterexample: the one-orbital cell with a single axis-one hopping
and the same cell without it reshape, under the two-thirds basis, to
identical outputs, while the numbers of silently dropped hoppings differ
(1 against 0).  Since the outputs are equal, no information exposed by the
operation - a count or anything else - lets the caller distinguish the
silent drop, refuting the claim. -/
theorem claim_C8_counterexample :
    reshape_prim_cell oneHopCell dropBasis (0, 0, 0) (1/100) (1/100000)
      = reshape_prim_cell oneOrbCell dropBasis (0, 0, 0) (1/100) (1/100000) ∧
    reshapeDropCount oneHopCell dropBasis (0, 0, 0) (1/100) (1/100000) = 1 ∧
    reshapeDropCount oneOrbCell dropBasis (0, 0, 0) (1/100) (1/100000)
      = 0 := by
  refine ⟨?_, oneHop_dropcount, noHop_dropcount⟩
  have hdet : ¬(det3 dropBasis = 0) := by
    norm_num [det3, dropBasis]
  have hcell : reshapeCore oneHopCell dropBasis (0, 0, 0) (1/100) (1/100000)
      = reshapeCore oneOrbCell dropBasis (0, 0, 0) (1/100) (1/100000) := by
    unfold reshapeCore
    rw [oneHop_hopset, noHop_hopset]
    rfl
  unfold reshape_prim_cell
  rw [if_neg hdet, if_neg hdet]
  exact congrArg some hcell

/-- C8 amended: a dropped hopping is not an error - reshape_prim_cell still
returns a cell for every regular basis - but the drop is silent and not
distinguishable to the caller: the operation exposes no dropped-hopping
count, and two inputs whose drop counts differ can produce identical
results, so no function of the returned value recovers the count. -/
theorem claim_C8 :
    (∀ (pc : PrimitiveCell) (lat_frac : Mat3) (origin : Vec3)
        (delta pos_tol : ℚ), det3 lat_frac ≠ 0 →
      reshape_prim_cell pc lat_frac origin delta pos_tol
        = some (reshapeCore pc lat_frac origin delta pos_tol)) ∧
    (∃ (pcA pcB : PrimitiveCell) (lat_frac : Mat3) (origin : Vec3)
        (delta pos_tol : ℚ),
      reshape_prim_cell pcA lat_frac origin delta pos_tol
        = reshape_prim_cell pcB lat_frac origin delta pos_tol ∧
      reshapeDropCount pcA lat_frac origin delta pos_tol = 1 ∧
      reshapeDropCount pcB lat_frac origin delta pos_tol = 0) := by
  constructor
  · intro pc m o d t hdet
    unfold reshape_prim_cell
    rw [if_neg hdet]
  · refine ⟨oneHopCell, oneOrbCell, dropBasis, (0, 0, 0), 1/100, 1/100000,
      ?_, oneHop_dropcount, noHop_dropcount⟩
    have hdet : ¬(det3 dropBasis = 0) := by
      norm_num [det3, dropBasis]
    have hcell : reshapeCore oneHopCell dropBasis (0, 0, 0) (1/100)
        (1/100000)
        = reshapeCore oneOrbCell dropBasis (0, 0, 0) (1/100) (1/100000) := by
      unfold reshapeCore
      rw [oneHop_hopset, noHop_hopset]
      rfl
    unfold reshape_prim_cell
    rw [if_neg hdet, if_neg hdet]
    exact congrArg some hcell

/-- Witness for C8: the no-error half applied at the drop example. -/
theorem claim_C8_witness :
    det3 dropBasis ≠ 0 ∧
    reshape_prim_cell oneHopCell dropBasis (0, 0, 0) (1/100) (1/100000)
      = some (reshapeCore oneHopCell dropBasis (0, 0, 0) (1/100)
          (1/100000)) :=
  ⟨by norm_num [det3, dropBasis],
   claim_C8.1 oneHopCell dropBasis (0, 0, 0) (1/100) (1/100000)
     (by norm_num [det3, dropBasis])⟩


/-! ### Claim C2: which orbital copies the reshaped cell contains -/

lemma id3_inv : inv3 id3 = id3 := by
  norm_num [inv3, det3, id3, Prod.ext_iff]

lemma id3_rnLo : rnLoV id3 = (-1, -1, -1) := by
  norm_num [rnLoV, rowSum3, v3add, v3sub, id3, Prod.ext_iff]

lemma id3_rnHi : rnHiV id3 = (2, 2, 2) := by
  norm_num [rnHiV, rowSum3, v3add, v3sub, id3, Prod.ext_iff]

set_option maxHeartbeats 2000000 in
lemma id3_entries_far :
    reshapeEntries oneOrbCell id3 (4, 0, 0) (1/100) = [] := by
  have hrange : intRange (-1) 2 = [-1, 0, 1, 2] := rfl
  have henum : oneOrbCell.orbital_list.enum = [(0, ⟨(0, 0, 0), 5⟩)] := rfl
  unfold reshapeEntries
  rw [id3_inv, id3_rnLo, id3_rnHi, hrange, henum]
  simp only [List.flatMap_cons, List.flatMap_nil, List.append_nil]
  norm_num [reshapeEntry, resPosOf, rowMul, iAdd, v3addC, v3sub, cellIndex,
    id3, List.filterMap_cons, List.filterMap_nil, Int.floor_eq_iff,
    Prod.ext_iff]

set_option maxHeartbeats 2000000 in
/-- C2 counterexample: with the identity basis and origin (4, 0, 0), the
copy of the single orbital at translation (4, 0, 0) lands inside the nudged
half-open unit cube, so the claim requires it to appear in the result; yet
reshape_prim_cell returns a cell with no orbitals at all, because the
search range is computed from the basis alone and never reaches
translation 4. -/
theorem claim_C2_counterexample :
    cellIndex (resPosOf (inv3 id3) (4, 0, 0) (1/100) (4, 0, 0)
        ((0, 0, 0) : Vec3)) = ((0 : ℤ), (0 : ℤ), (0 : ℤ)) ∧
    oneOrbCell.orbital_list = [⟨(0, 0, 0), 5⟩] ∧
    reshape_prim_cell oneOrbCell id3 (4, 0, 0) (1/100) (1/100000)
      = some (reshapeCore oneOrbCell id3 (4, 0, 0) (1/100) (1/100000)) ∧
    (reshapeCore oneOrbCell id3 (4, 0, 0) (1/100)
        (1/100000)).orbital_list = [] := by
  refine ⟨?_, rfl, ?_, ?_⟩
  · rw [id3_inv]
    norm_num [resPosOf, rowMul, iAdd, v3addC, v3sub, cellIndex, id3,
      Int.floor_eq_iff, Prod.ext_iff]
  · unfold reshape_prim_cell
    rw [if_neg (by norm_num [det3, id3])]
  · show (reshapeEntries oneOrbCell id3 (4, 0, 0) (1/100)).map _ = []
    rw [id3_entries_far]
    rfl

/-- C2 amended: for every regular basis, reshape_prim_cell succeeds and the
result contains exactly those orbital copies whose integer translation lies
in the search box computed from the basis rows and whose image under the
basis conversion, after subtracting the origin and adding the delta nudge,
lies in the half-open unit cube (every component has floor zero), each kept
copy storing the un-nudged image position and the original orbital energy.
(The unrestricted claim over all integer translations fails: the search box
does not depend on the origin or the orbital positions, see the
counterexample.) -/
theorem claim_C2 (pc : PrimitiveCell) (lat_frac : Mat3) (origin : Vec3)
    (delta pos_tol : ℚ) (hdet : det3 lat_frac ≠ 0) :
    reshape_prim_cell pc lat_frac origin delta pos_tol
      = some (reshapeCore pc lat_frac origin delta pos_tol) ∧
    ∀ o : Orbital,
      o ∈ (reshapeCore pc lat_frac origin delta pos_tol).orbital_list ↔
        ∃ ia ib ic : ℤ,
          ((rnLoV lat_frac).1 ≤ ia ∧ ia ≤ (rnHiV lat_frac).1) ∧
          ((rnLoV lat_frac).2.1 ≤ ib ∧ ib ≤ (rnHiV lat_frac).2.1) ∧
          ((rnLoV lat_frac).2.2 ≤ ic ∧ ic ≤ (rnHiV lat_frac).2.2) ∧
          ∃ io : ℕ, ∃ orb : Orbital,
            pc.orbital_list[io]? = some orb ∧
            cellIndex (resPosOf (inv3 lat_frac) origin delta (ia, ib, ic)
              orb.position) = ((0 : ℤ), (0 : ℤ), (0 : ℤ)) ∧
            o = ⟨v3addC (resPosOf (inv3 lat_frac) origin delta (ia, ib, ic)
                  orb.position) (-delta), orb.energy⟩ := by
  refine ⟨by unfold reshape_prim_cell; rw [if_neg hdet], ?_⟩
  intro o
  show o ∈ (reshapeEntries pc lat_frac origin delta).map
      (fun e => ⟨v3addC e.2.position (-delta), e.2.energy⟩) ↔ _
  rw [List.mem_map]
  constructor
  · rintro ⟨e, he, rfl⟩
    rcases mem_reshapeEntries.mp he with
      ⟨ia, ib, ic, hia, hib, hic, io, orb, horb, hc, rfl⟩
    exact ⟨ia, ib, ic, hia, hib, hic, io, orb, horb, hc, rfl⟩
  · rintro ⟨ia, ib, ic, hia, hib, hic, io, orb, horb, hc, rfl⟩
    exact ⟨(((ia, ib, ic), io),
            ⟨resPosOf (inv3 lat_frac) origin delta (ia, ib, ic)
               orb.position, orb.energy⟩),
           mem_reshapeEntries.mpr
             ⟨ia, ib, ic, hia, hib, hic, io, orb, horb, hc, rfl⟩, rfl⟩

/-- Witness for C2 at the one-orbital cell with the identity basis. -/
theorem claim_C2_witness :
    det3 id3 ≠ 0 ∧
    (reshape_prim_cell oneOrbCell id3 (0, 0, 0) (1/100) (1/100000)
      = some (reshapeCore oneOrbCell id3 (0, 0, 0) (1/100) (1/100000)) ∧
    ∀ o : Orbital,
      o ∈ (reshapeCore oneOrbCell id3 (0, 0, 0) (1/100)
          (1/100000)).orbital_list ↔
        ∃ ia ib ic : ℤ,
          ((rnLoV id3).1 ≤ ia ∧ ia ≤ (rnHiV id3).1) ∧
          ((rnLoV id3).2.1 ≤ ib ∧ ib ≤ (rnHiV id3).2.1) ∧
          ((rnLoV id3).2.2 ≤ ic ∧ ic ≤ (rnHiV id3).2.2) ∧
          ∃ io : ℕ, ∃ orb : Orbital,
            oneOrbCell.orbital_list[io]? = some orb ∧
            cellIndex (resPosOf (inv3 id3) (0, 0, 0) (1/100) (ia, ib, ic)
              orb.position) = ((0 : ℤ), (0 : ℤ), (0 : ℤ)) ∧
            o = ⟨v3addC (resPosOf (inv3 id3) (0, 0, 0) (1/100) (ia, ib, ic)
                  orb.position) (-(1/100)), orb.energy⟩) :=
  ⟨by norm_num [det3, id3],
   claim_C2 oneOrbCell id3 (0, 0, 0) (1/100) (1/100000)
     (by norm_num [det3, id3])⟩

/-! ### Claim C10: one hopping entry per matching candidate -/

lemma dbl_inv : inv3 dblBasis = ((1/2, 0, 0), (0, 1, 0), (0, 0, 1)) := by
  norm_num [inv3, det3, dblBasis, Prod.ext_iff]

set_option maxHeartbeats 2000000 in
lemma dbl_entries :
    reshapeEntries oneHopCell dblBasis (0, 0, 0) (1/100)
      = [(((0, 0, 0), 0), ⟨(1/100, 1/100, 1/100), 5⟩),
         (((1, 0, 0), 0), ⟨(51/100, 1/100, 1/100), 5⟩)] := by
  have hlo : rnLoV dblBasis = (-1, -1, -1) := by
    norm_num [rnLoV, rowSum3, v3add, v3sub, dblBasis, Int.floor_eq_iff,
      Prod.ext_iff]
  have hhi : rnHiV dblBasis = (3, 2, 2) := by
    norm_num [rnHiV, rowSum3, v3add, v3sub, dblBasis, Prod.ext_iff]
  have hrange5 : intRange (-1) 3 = [-1, 0, 1, 2, 3] := rfl
  have hrange : intRange (-1) 2 = [-1, 0, 1, 2] := rfl
  have henum : oneHopCell.orbital_list.enum = [(0, ⟨(0, 0, 0), 5⟩)] := rfl
  unfold reshapeEntries
  rw [dbl_inv, hlo, hhi, hrange5, hrange, henum]
  simp only [List.flatMap_cons, List.flatMap_nil, List.append_nil]
  norm_num [reshapeEntry, resPosOf, rowMul, iAdd, v3addC, v3sub, cellIndex,
    List.filterMap_cons, List.filterMap_nil, Int.floor_eq_iff, Prod.ext_iff]

set_option maxHeartbeats 2000000 in
lemma dbl_hopset_len :
    (reshapeHopSet oneHopCell dblBasis (0, 0, 0) (1/100) 2).length = 4 := by
  unfold reshapeHopSet
  rw [dbl_entries, dbl_inv]
  have hfa : (⌊(51 : ℚ)/100⌋ : ℤ) = 0 := by
    norm_num [Int.floor_eq_iff]
  have hfb : (⌊(101 : ℚ)/100⌋ : ℤ) = 1 := by
    norm_num [Int.floor_eq_iff]
  have hf1 : Int.fract ((51 : ℚ)/100) = 51/100 := by
    unfold Int.fract
    rw [hfa]
    norm_num
  have hf2 : Int.fract ((101 : ℚ)/100) = 1/100 := by
    unfold Int.fract
    rw [hfb]
    norm_num
  norm_num [List.enum, List.enumFrom, List.flatMap_cons, List.flatMap_nil,
    List.filterMap_cons, List.filterMap_nil, candMatch, hopWrapped,
    resPosOf, rowMul, iAdd, iAddI, v3addC, v3sub, v3subI, normSq, cellIndex,
    oneHopCell, Int.floor_eq_iff, hf1, hf2]

/-- C10: for every regular basis, reshape_prim_cell succeeds and its
hopping count equals the sum, over every kept source copy and every
original hopping with matching source orbital, of the number of kept
candidate copies of the destination orbital lying within pos_tol of the
wrapped transformed destination - one hopping entry per candidate.  In
particular a single original hopping can produce several entries: the
one-orbital one-hopping cell reshaped with the doubling basis and a large
tolerance yields four entries from its single original hopping. -/
theorem claim_C10 (pc : PrimitiveCell) (lat_frac : Mat3) (origin : Vec3)
    (delta pos_tol : ℚ) (hdet : det3 lat_frac ≠ 0) :
    reshape_prim_cell pc lat_frac origin delta pos_tol
      = some (reshapeCore pc lat_frac origin delta pos_tol) ∧
    (reshapeCore pc lat_frac origin delta pos_tol).hopping_list.length
      = ((reshapeEntries pc lat_frac origin delta).enum.map (fun pi =>
          (pc.hopping_list.map (fun h =>
            if h.orb_i = pi.2.1.2 then
              (reshapeEntries pc lat_frac origin delta).enum.countP
                (fun pj => decide (candMatch pos_tol
                  (hopWrapped pc (inv3 lat_frac) origin delta pi.2.1.1 h).2
                  h.orb_j pj.2))
            else 0)).sum)).sum ∧
    ((reshapeCore oneHopCell dblBasis (0, 0, 0) (1/100)
        2).hopping_list.length = 4 ∧
      oneHopCell.hopping_list.length = 1) :=
  ⟨by unfold reshape_prim_cell; rw [if_neg hdet],
   reshapeHopSet_length pc lat_frac origin delta pos_tol,
   dbl_hopset_len, rfl⟩

/-- Witness for C10 at the doubling-basis example. -/
theorem claim_C10_witness :
    det3 dblBasis ≠ 0 ∧
    (reshape_prim_cell oneHopCell dblBasis (0, 0, 0) (1/100) 2
      = some (reshapeCore oneHopCell dblBasis (0, 0, 0) (1/100) 2) ∧
    (reshapeCore oneHopCell dblBasis (0, 0, 0) (1/100) 2).hopping_list.length
      = ((reshapeEntries oneHopCell dblBasis (0, 0, 0) (1/100)).enum.map
          (fun pi =>
          (oneHopCell.hopping_list.map (fun h =>
            if h.orb_i = pi.2.1.2 then
              (reshapeEntries oneHopCell dblBasis (0, 0, 0)
                  (1/100)).enum.countP
                (fun pj => decide (candMatch 2
                  (hopWrapped oneHopCell (inv3 dblBasis) (0, 0, 0) (1/100)
                    pi.2.1.1 h).2 h.orb_j pj.2))
            else 0)).sum)).sum ∧
    ((reshapeCore oneHopCell dblBasis (0, 0, 0) (1/100)
        2).hopping_list.length = 4 ∧
      oneHopCell.hopping_list.length = 1)) :=
  ⟨by norm_num [det3, dblBasis],
   claim_C10 oneHopCell dblBasis (0, 0, 0) (1/100) 2
     (by norm_num [det3, dblBasis])⟩


/-! ### Claim C7: reshape with the identity basis -/

lemma rowMul_id3 (x : Vec3) : rowMul x id3 = x := by
  norm_num [rowMul, id3, Prod.ext_iff]

lemma rowMul_e1 (m : Mat3) : rowMul ((1 : ℚ), 0, 0) m = m.1 := by
  norm_num [rowMul, Prod.ext_iff]

lemma rowMul_e2 (m : Mat3) : rowMul ((0 : ℚ), 1, 0) m = m.2.1 := by
  norm_num [rowMul, Prod.ext_iff]

lemma rowMul_e3 (m : Mat3) : rowMul ((0 : ℚ), 0, 1) m = m.2.2 := by
  norm_num [rowMul, Prod.ext_iff]

lemma resPosOf_id3 (rn : IVec3) (pos : Vec3) (d : ℚ) :
    resPosOf id3 (0, 0, 0) d rn pos
      = ((rn.1 : ℚ) + (pos.1 + d), (rn.2.1 : ℚ) + (pos.2.1 + d),
         (rn.2.2 : ℚ) + (pos.2.2 + d)) := by
  unfold resPosOf
  rw [rowMul_id3]
  simp only [iAdd, v3addC, v3sub, Prod.ext_iff]
  refine ⟨by ring, by ring, by ring⟩

lemma cellIndex_id3 (rn : IVec3) (pos : Vec3) (d : ℚ) :
    cellIndex (resPosOf id3 (0, 0, 0) d rn pos)
      = (rn.1 + ⌊pos.1 + d⌋, rn.2.1 + ⌊pos.2.1 + d⌋,
         rn.2.2 + ⌊pos.2.2 + d⌋) := by
  rw [resPosOf_id3]
  unfold cellIndex
  norm_num [Int.floor_int_add, Prod.ext_iff]

lemma id3_keep_iff (rn : IVec3) (pos : Vec3) (d : ℚ) :
    cellIndex (resPosOf id3 (0, 0, 0) d rn pos)
        = ((0 : ℤ), (0 : ℤ), (0 : ℤ))
      ↔ rn = (-⌊pos.1 + d⌋, -⌊pos.2.1 + d⌋, -⌊pos.2.2 + d⌋) := by
  rw [cellIndex_id3]
  rw [Prod.ext_iff, Prod.ext_iff, Prod.ext_iff, Prod.ext_iff]
  dsimp only
  omega

lemma floor_unit_bounds {p d : ℚ} (h0 : 0 ≤ p) (h1 : p < 1)
    (hd0 : 0 ≤ d) (hd1 : d < 1) :
    (-1 : ℤ) ≤ -⌊p + d⌋ ∧ -⌊p + d⌋ ≤ 2 := by
  have hge : (0 : ℤ) ≤ ⌊p + d⌋ := by
    rw [Int.floor_nonneg]
    linarith
  have hlt : ⌊p + d⌋ < 2 := by
    rw [Int.floor_lt]
    push_cast
    linarith
  omega

lemma countP_eq_count_dec {α : Type} [DecidableEq α] (l : List α) (a : α) :
    l.countP (fun x => decide (x = a)) = l.count a := by
  induction l with
  | nil => rfl
  | cons b t ih =>
    rw [List.countP_cons, List.count_cons, ih]
    simp

lemma mem_of_mem_enum {α : Type} {l : List α} {p : ℕ × α}
    (hp : p ∈ l.enum) : p.2 ∈ l := by
  have hget : l[p.1]? = some p.2 := List.mem_enum_iff_getElem?.mp hp
  rcases List.getElem?_eq_some_iff.mp hget with ⟨hlt, hval⟩
  rw [← hval]
  exact List.getElem_mem hlt

lemma id3_box_countP (pos : Vec3)
    (hp : (0 ≤ pos.1 ∧ pos.1 < 1) ∧ (0 ≤ pos.2.1 ∧ pos.2.1 < 1) ∧
      (0 ≤ pos.2.2 ∧ pos.2.2 < 1)) :
    ((intRange (rnLoV id3).1 (rnHiV id3).1).flatMap fun ia =>
        (intRange (rnLoV id3).2.1 (rnHiV id3).2.1).flatMap fun ib =>
          (intRange (rnLoV id3).2.2 (rnHiV id3).2.2).map fun ic =>
            ((ia, ib, ic) : IVec3)).countP
      (fun rn => decide (cellIndex (resPosOf id3 (0, 0, 0) (1/100) rn pos)
        = ((0 : ℤ), (0 : ℤ), (0 : ℤ)))) = 1 := by
  have hcongr : ∀ rn : IVec3,
      decide (cellIndex (resPosOf id3 (0, 0, 0) (1/100) rn pos)
          = ((0 : ℤ), (0 : ℤ), (0 : ℤ)))
        = decide (rn = (-⌊pos.1 + 1/100⌋, -⌊pos.2.1 + 1/100⌋,
            -⌊pos.2.2 + 1/100⌋)) := by
    intro rn
    exact decide_eq_decide.mpr (id3_keep_iff rn pos (1/100))
  rw [List.countP_congr (fun rn _ => by rw [hcongr rn])]
  rw [countP_eq_count_dec]
  refine List.count_eq_one_of_mem (nodup_rnBox id3) ?_
  rw [mem_rnBox, id3_rnLo, id3_rnHi]
  have b1 := floor_unit_bounds hp.1.1 hp.1.2 (by norm_num) (by norm_num :
    (1 : ℚ)/100 < 1)
  have b2 := floor_unit_bounds hp.2.1.1 hp.2.1.2 (by norm_num) (by norm_num :
    (1 : ℚ)/100 < 1)
  have b3 := floor_unit_bounds hp.2.2.1 hp.2.2.2 (by norm_num) (by norm_num :
    (1 : ℚ)/100 < 1)
  exact ⟨⟨b1.1, b1.2⟩, ⟨b2.1, b2.2⟩, ⟨b3.1, b3.2⟩⟩


lemma id3_entries_length (pc : PrimitiveCell) (hpos : PosUnit pc) :
    (reshapeEntries pc id3 (0, 0, 0) (1/100)).length
      = pc.orbital_list.length := by
  rw [reshapeEntries_eq_box, id3_inv, List.length_flatMap]
  have hstep : ∀ rn ∈ ((intRange (rnLoV id3).1 (rnHiV id3).1).flatMap
      fun ia => (intRange (rnLoV id3).2.1 (rnHiV id3).2.1).flatMap fun ib =>
        (intRange (rnLoV id3).2.2 (rnHiV id3).2.2).map fun ic =>
          ((ia, ib, ic) : IVec3)),
      (List.length ∘ fun rn => pc.orbital_list.enum.filterMap fun p =>
        reshapeEntry id3 (0, 0, 0) (1/100) rn p.1 p.2) rn
      = pc.orbital_list.enum.countP (fun p =>
          decide (cellIndex (resPosOf id3 (0, 0, 0) (1/100) rn
            p.2.position) = ((0 : ℤ), (0 : ℤ), (0 : ℤ)))) := by
    intro rn _
    simp only [Function.comp_def]
    rw [List.filterMap_congr (fun p _ =>
      reshapeEntry_eq_ite id3 (0, 0, 0) (1/100) rn p.1 p.2)]
    rw [length_filterMap_ite]
  rw [List.map_congr_left hstep]
  rw [sum_countP_swap pc.orbital_list.enum _ (fun p rn =>
    cellIndex (resPosOf id3 (0, 0, 0) (1/100) rn p.2.position)
      = ((0 : ℤ), (0 : ℤ), (0 : ℤ)))]
  rw [sum_map_const_nat _ _ 1 (fun p hp =>
    id3_box_countP p.2.position (hpos p.2 (mem_of_mem_enum hp)))]
  rw [List.enum_length, Nat.mul_one]

lemma id3_entries_countP_io (pc : PrimitiveCell) (hpos : PosUnit pc)
    {j : ℕ} (hj : j < pc.orbital_list.length) :
    (reshapeEntries pc id3 (0, 0, 0) (1/100)).countP
      (fun e => decide (e.1.2 = j)) = 1 := by
  rw [reshapeEntries_eq_box, id3_inv, List.countP_flatMap]
  have hstep : ∀ rn ∈ ((intRange (rnLoV id3).1 (rnHiV id3).1).flatMap
      fun ia => (intRange (rnLoV id3).2.1 (rnHiV id3).2.1).flatMap fun ib =>
        (intRange (rnLoV id3).2.2 (rnHiV id3).2.2).map fun ic =>
          ((ia, ib, ic) : IVec3)),
      ((List.countP fun e : (IVec3 × ℕ) × Orbital => decide (e.1.2 = j))
        ∘ fun rn => pc.orbital_list.enum.filterMap fun p =>
          reshapeEntry id3 (0, 0, 0) (1/100) rn p.1 p.2) rn
      = if cellIndex (resPosOf id3 (0, 0, 0) (1/100) rn
            pc.orbital_list[j].position) = ((0 : ℤ), (0 : ℤ), (0 : ℤ))
        then 1 else 0 := by
    intro rn _
    simp only [Function.comp_def]
    rw [List.filterMap_congr (fun p _ =>
      reshapeEntry_eq_ite id3 (0, 0, 0) (1/100) rn p.1 p.2)]
    rw [countP_filterMap_ite]
    have hflip : pc.orbital_list.enum.countP (fun p =>
        decide (cellIndex (resPosOf id3 (0, 0, 0) (1/100) rn
            p.2.position) = ((0 : ℤ), (0 : ℤ), (0 : ℤ))
          ∧ (((rn, p.1), (⟨resPosOf id3 (0, 0, 0) (1/100) rn p.2.position,
              p.2.energy⟩ : Orbital)) : (IVec3 × ℕ) × Orbital).1.2 = j))
        = pc.orbital_list.enum.countP (fun p => decide (p.1 = j ∧
            cellIndex (resPosOf id3 (0, 0, 0) (1/100) rn
              p.2.position) = ((0 : ℤ), (0 : ℤ), (0 : ℤ)))) := by
      refine List.countP_congr (fun p _ => ?_)
      simp only [decide_eq_true_eq]
      constructor
      · rintro ⟨hA, hB⟩
        exact ⟨hB, hA⟩
      · rintro ⟨hB, hA⟩
        exact ⟨hA, hB⟩
    refine Eq.trans hflip ?_
    have hpin := countP_enumFrom_pinned (fun orb : Orbital =>
      cellIndex (resPosOf id3 (0, 0, 0) (1/100) rn orb.position)
        = ((0 : ℤ), (0 : ℤ), (0 : ℤ))) j pc.orbital_list 0
    refine Eq.trans hpin ?_
    have hj0 : ¬(j < 0) := by omega
    rw [if_neg hj0]
    have hg : pc.orbital_list[j - 0]? = some pc.orbital_list[j] := by
      have : j - 0 = j := by omega
      rw [this]
      exact List.getElem?_eq_getElem hj
    rw [hg]
  rw [List.map_congr_left hstep]
  rw [sum_map_ite]
  exact id3_box_countP pc.orbital_list[j].position
    (hpos _ (List.getElem_mem hj))


lemma id3_wrapped (pc : PrimitiveCell) {h : Hopping}
    (hj : h.orb_j < pc.orbital_list.length) (rni : IVec3) :
    (hopWrapped pc (inv3 id3) (0, 0, 0) (1/100) rni h).2
      = resPosOf id3 (0, 0, 0) (1/100)
          (-⌊pc.orbital_list[h.orb_j].position.1 + 1/100⌋,
           -⌊pc.orbital_list[h.orb_j].position.2.1 + 1/100⌋,
           -⌊pc.orbital_list[h.orb_j].position.2.2 + 1/100⌋)
          pc.orbital_list[h.orb_j].position := by
  unfold hopWrapped
  rw [id3_inv, List.getD_eq_getElem _ _ hj]
  rw [cellIndex_id3, resPosOf_id3, resPosOf_id3]
  unfold v3subI
  simp only [Prod.ext_iff]
  refine ⟨by push_cast; ring, by push_cast; ring, by push_cast; ring⟩

lemma v3sub_self (x : Vec3) : v3sub x x = (0, 0, 0) := by
  unfold v3sub
  norm_num [Prod.ext_iff]

lemma id3_cand_count (pc : PrimitiveCell) (hpos : PosUnit pc) {h : Hopping}
    (hj : h.orb_j < pc.orbital_list.length) (rni : IVec3) :
    (reshapeEntries pc id3 (0, 0, 0) (1/100)).enum.countP
      (fun pj => decide (candMatch (1/100000)
        (hopWrapped pc (inv3 id3) (0, 0, 0) (1/100) rni h).2
        h.orb_j pj.2)) = 1 := by
  have hsnd := countP_enumFrom_snd (reshapeEntries pc id3 (0, 0, 0) (1/100))
    0 (fun e => candMatch (1/100000)
      (hopWrapped pc (inv3 id3) (0, 0, 0) (1/100) rni h).2 h.orb_j e)
  refine Eq.trans hsnd (Nat.le_antisymm ?_ ?_)
  · refine le_trans (List.countP_mono_left (fun e _ hc => ?_))
      (le_of_eq (id3_entries_countP_io pc hpos hj))
    simp only [decide_eq_true_eq] at hc ⊢
    exact hc.1
  · refine List.countP_pos_iff.mpr ⟨(((-⌊pc.orbital_list[h.orb_j].position.1 + 1/100⌋,
               -⌊pc.orbital_list[h.orb_j].position.2.1 + 1/100⌋,
               -⌊pc.orbital_list[h.orb_j].position.2.2 + 1/100⌋), h.orb_j),
             ⟨resPosOf id3 (0, 0, 0) (1/100)
                (-⌊pc.orbital_list[h.orb_j].position.1 + 1/100⌋,
                 -⌊pc.orbital_list[h.orb_j].position.2.1 + 1/100⌋,
                 -⌊pc.orbital_list[h.orb_j].position.2.2 + 1/100⌋)
                pc.orbital_list[h.orb_j].position,
              pc.orbital_list[h.orb_j].energy⟩), ?_, ?_⟩
    · have hp := hpos _ (List.getElem_mem hj)
      have b1 := floor_unit_bounds hp.1.1 hp.1.2
        (by norm_num) (by norm_num : (1 : ℚ)/100 < 1)
      have b2 := floor_unit_bounds hp.2.1.1 hp.2.1.2
        (by norm_num) (by norm_num : (1 : ℚ)/100 < 1)
      have b3 := floor_unit_bounds hp.2.2.1 hp.2.2.2
        (by norm_num) (by norm_num : (1 : ℚ)/100 < 1)
      refine mem_reshapeEntries.mpr
        ⟨-⌊pc.orbital_list[h.orb_j].position.1 + 1/100⌋,
         -⌊pc.orbital_list[h.orb_j].position.2.1 + 1/100⌋,
         -⌊pc.orbital_list[h.orb_j].position.2.2 + 1/100⌋,
         ⟨by rw [id3_rnLo]; exact b1.1, by rw [id3_rnHi]; exact b1.2⟩,
         ⟨by rw [id3_rnLo]; exact b2.1, by rw [id3_rnHi]; exact b2.2⟩,
         ⟨by rw [id3_rnLo]; exact b3.1, by rw [id3_rnHi]; exact b3.2⟩,
         h.orb_j, pc.orbital_list[h.orb_j],
         List.getElem?_eq_getElem hj, ?_, ?_⟩
      · rw [id3_inv]
        exact (id3_keep_iff _ _ _).mpr rfl
      · rw [id3_inv]
    · simp only [decide_eq_true_eq]
      refine ⟨rfl, by norm_num, ?_⟩
      rw [id3_wrapped pc hj rni]
      rw [v3sub_self]
      norm_num [normSq]

lemma id3_hop_length (pc : PrimitiveCell) (hwf : WellFormed pc)
    (hpos : PosUnit pc) :
    (reshapeHopSet pc id3 (0, 0, 0) (1/100) (1/100000)).length
      = pc.hopping_list.length := by
  rw [reshapeHopSet_length]
  have hstep : ∀ pi ∈ (reshapeEntries pc id3 (0, 0, 0) (1/100)).enum,
      (pc.hopping_list.map (fun h =>
        if h.orb_i = pi.2.1.2 then
          (reshapeEntries pc id3 (0, 0, 0) (1/100)).enum.countP
            (fun pj => decide (candMatch (1/100000)
              (hopWrapped pc (inv3 id3) (0, 0, 0) (1/100) pi.2.1.1 h).2
              h.orb_j pj.2))
        else 0)).sum
      = pc.hopping_list.countP (fun h => decide (h.orb_i = pi.2.1.2)) := by
    intro pi _
    have hone : ∀ h ∈ pc.hopping_list,
        (if h.orb_i = pi.2.1.2 then
          (reshapeEntries pc id3 (0, 0, 0) (1/100)).enum.countP
            (fun pj => decide (candMatch (1/100000)
              (hopWrapped pc (inv3 id3) (0, 0, 0) (1/100) pi.2.1.1 h).2
              h.orb_j pj.2))
        else 0)
        = if h.orb_i = pi.2.1.2 then 1 else 0 := by
      intro h hh
      by_cases hc : h.orb_i = pi.2.1.2
      · rw [if_pos hc, if_pos hc,
          id3_cand_count pc hpos (hwf h hh).2 pi.2.1.1]
      · rw [if_neg hc, if_neg hc]
    rw [List.map_congr_left hone, sum_map_ite]
  rw [List.map_congr_left hstep]
  rw [sum_countP_swap pc.hopping_list
    ((reshapeEntries pc id3 (0, 0, 0) (1/100)).enum)
    (fun h pi => h.orb_i = pi.2.1.2)]
  have hper : ∀ h ∈ pc.hopping_list,
      ((reshapeEntries pc id3 (0, 0, 0) (1/100)).enum).countP
        (fun pi => decide (h.orb_i = pi.2.1.2)) = 1 := by
    intro h hh
    have hsnd := countP_enumFrom_snd
      (reshapeEntries pc id3 (0, 0, 0) (1/100)) 0
      (fun e => h.orb_i = e.1.2)
    refine Eq.trans hsnd ?_
    refine Eq.trans (List.countP_congr (fun e _ => ?_))
      (id3_entries_countP_io pc hpos (hwf h hh).1)
    simp only [decide_eq_true_eq]
    exact eq_comm
  rw [sum_map_const_nat _ _ 1 hper, Nat.mul_one]

set_option maxHeartbeats 2000000 in
lemma far_entries :
    reshapeEntries farOrbCell id3 (0, 0, 0) (1/100) = [] := by
  have hrange : intRange (-1) 2 = [-1, 0, 1, 2] := rfl
  have henum : farOrbCell.orbital_list.enum
      = [(0, ⟨(53/10, 0, 0), 5⟩)] := rfl
  unfold reshapeEntries
  rw [id3_inv, id3_rnLo, id3_rnHi, hrange, henum]
  simp only [List.flatMap_cons, List.flatMap_nil, List.append_nil]
  norm_num [reshapeEntry, resPosOf, rowMul, iAdd, v3addC, v3sub, cellIndex,
    id3, List.filterMap_cons, List.filterMap_nil, Int.floor_eq_iff,
    Prod.ext_iff]

/-- C7 counterexample: farOrbCell is well-formed (one orbital, no
hoppings), and its orbital at (53/10, 0, 0) has a qualifying copy at
translation (-5, 0, 0) whose image lands in the half-open unit cube; but
the search box of the identity basis starts at -1 on every axis, so
reshape with the identity basis and zero origin returns a cell with no
orbitals at all: the orbital count is not preserved on every well-formed
model. -/
theorem claim_C7_counterexample :
    WellFormed farOrbCell ∧
    farOrbCell.orbital_list.length = 1 ∧
    cellIndex (resPosOf (inv3 id3) (0, 0, 0) (1/100) (-5, 0, 0)
        ((53/10, 0, 0) : Vec3)) = ((0 : ℤ), (0 : ℤ), (0 : ℤ)) ∧
    rnLoV id3 = (-1, -1, -1) ∧
    reshape_prim_cell farOrbCell id3 (0, 0, 0) (1/100) (1/100000)
      = some (reshapeCore farOrbCell id3 (0, 0, 0) (1/100) (1/100000)) ∧
    (reshapeCore farOrbCell id3 (0, 0, 0) (1/100)
        (1/100000)).orbital_list.length = 0 := by
  refine ⟨by decide, rfl, ?_, id3_rnLo, ?_, ?_⟩
  · rw [id3_inv]
    norm_num [resPosOf, rowMul, iAdd, v3addC, v3sub, cellIndex, id3,
      Int.floor_eq_iff, Prod.ext_iff]
  · unfold reshape_prim_cell
    rw [if_neg (by norm_num [det3, id3])]
  · show ((reshapeEntries farOrbCell id3 (0, 0, 0)
        (1/100)).map _).length = 0
    rw [far_entries]
    rfl

/-- C7 amended: reshaping a well-formed model whose orbital positions lie
in the half-open unit cube with the identity basis and zero origin
succeeds and preserves the orbital count, the hopping count and the
lattice vectors. (The unrestricted claim over all well-formed models
fails: a position outside the unit cube can need a translation outside
the basis-only search box, see the counterexample.) -/
theorem claim_C7 (pc : PrimitiveCell) (hwf : WellFormed pc)
    (hpos : PosUnit pc) :
    reshape_prim_cell pc id3 (0, 0, 0) (1/100) (1/100000)
      = some (reshapeCore pc id3 (0, 0, 0) (1/100) (1/100000)) ∧
    (reshapeCore pc id3 (0, 0, 0) (1/100)
        (1/100000)).orbital_list.length = pc.orbital_list.length ∧
    (reshapeCore pc id3 (0, 0, 0) (1/100)
        (1/100000)).hopping_list.length = pc.hopping_list.length ∧
    (reshapeCore pc id3 (0, 0, 0) (1/100) (1/100000)).lat_vec
      = pc.lat_vec := by
  refine ⟨by unfold reshape_prim_cell; rw [if_neg (by norm_num [det3, id3])],
    ?_, id3_hop_length pc hwf hpos, ?_⟩
  · show ((reshapeEntries pc id3 (0, 0, 0) (1/100)).map _).length = _
    rw [List.length_map]
    exact id3_entries_length pc hpos
  · show (rowMul id3.1 pc.lat_vec, rowMul id3.2.1 pc.lat_vec,
      rowMul id3.2.2 pc.lat_vec) = pc.lat_vec
    have h1 : (id3.1 : Vec3) = ((1 : ℚ), 0, 0) := rfl
    have h2 : (id3.2.1 : Vec3) = ((0 : ℚ), 1, 0) := rfl
    have h3 : (id3.2.2 : Vec3) = ((0 : ℚ), 0, 1) := rfl
    rw [h1, h2, h3, rowMul_e1, rowMul_e2, rowMul_e3]

/-- Witness for C7 at the two-band test cell. -/
theorem claim_C7_witness :
    (WellFormed twoBandCell ∧ PosUnit twoBandCell) ∧
    (reshape_prim_cell twoBandCell id3 (0, 0, 0) (1/100) (1/100000)
      = some (reshapeCore twoBandCell id3 (0, 0, 0) (1/100) (1/100000)) ∧
    (reshapeCore twoBandCell id3 (0, 0, 0) (1/100)
        (1/100000)).orbital_list.length = twoBandCell.orbital_list.length ∧
    (reshapeCore twoBandCell id3 (0, 0, 0) (1/100)
        (1/100000)).hopping_list.length = twoBandCell.hopping_list.length ∧
    (reshapeCore twoBandCell id3 (0, 0, 0) (1/100) (1/100000)).lat_vec
      = twoBandCell.lat_vec) :=
  ⟨⟨by decide, by norm_num [PosUnit, twoBandCell]⟩,
   claim_C7 twoBandCell (by decide) (by norm_num [PosUnit, twoBandCell])⟩

end TBPlaS
